import Mathlib

/-!
Verification development for the npp language pipeline (Go sources:
frontend/lexer/lexer.go, frontend/parser/parser.go,
core/interpreter/interpreter.go).

The Go code works on byte strings; we model source text and all literal
text as `List Nat` of byte values (0-255).  Machine integers (Go int64)
are modelled as `Int` together with explicit two's-complement wrapping
`wrap64`.  Loops of the Go code become fuel-indexed structural
recursions; every public wrapper supplies a fuel that is proved (or, for
the concrete computations, simply is) sufficient, so all definitions are
executable and reduce in the kernel.
-/

set_option maxRecDepth 100000
set_option maxHeartbeats 3200000

namespace Npp

/-- Bytes of a (ASCII) Lean string, used to write concrete byte lists readably. -/
def strBytes (s : String) : List Nat := s.data.map (fun c => c.toNat)

/-- Decimal digit bytes of a natural number, most significant first.
Fuel bounds the number of digits; 64 is plenty for any int64 value. -/
def natDigitsF : Nat → Nat → List Nat
  | 0, _ => []
  | f+1, n => if n < 10 then [48 + n] else natDigitsF f (n / 10) ++ [48 + n % 10]

/-- Model of Go `fmt.Sprintf("%d", v)` for an int64 value: decimal bytes,
with a leading `-` (byte 45) for negative values. -/
def decimalBytes (i : Int) : List Nat :=
  if i < 0 then 45 :: natDigitsF 64 i.natAbs else natDigitsF 64 i.toNat

/-- Two's-complement wrapping into the signed 64-bit range
`[-2^63, 2^63)`: the semantics of Go's int64 arithmetic (written with
explicit numerals so that it evaluates fast in the kernel). -/
def wrap64 (x : Int) : Int :=
  (x + 9223372036854775808) % 18446744073709551616 - 9223372036854775808

/-! ## Lexer (frontend/lexer/lexer.go)

State of `type Lexer struct`.  `ch` holds the current byte, 0 denoting
end of input exactly as in Go. -/

structure Lexer where
  input : List Nat
  position : Nat
  readPosition : Nat
  ch : Nat
  line : Nat
  column : Nat
deriving Repr, DecidableEq

/-- `func (l *Lexer) readChar()`: load the byte at `readPosition` (0 past
the end), advance both cursors, and update the line/column counters —
newline starts a new line at column 1, any other nonzero byte advances
the column. -/
def readChar (l : Lexer) : Lexer :=
  if l.input.getD l.readPosition 0 = 10 then
    { l with ch := l.input.getD l.readPosition 0, position := l.readPosition,
             readPosition := l.readPosition + 1, line := l.line + 1, column := 1 }
  else if l.input.getD l.readPosition 0 ≠ 0 then
    { l with ch := l.input.getD l.readPosition 0, position := l.readPosition,
             readPosition := l.readPosition + 1, column := l.column + 1 }
  else
    { l with ch := l.input.getD l.readPosition 0, position := l.readPosition,
             readPosition := l.readPosition + 1 }

/-- `func New(input string) *Lexer`: Go zero values for the untouched
fields, line and column start at 1, then one `readChar`. -/
def lexerNew (input : List Nat) : Lexer :=
  readChar { input := input, position := 0, readPosition := 0, ch := 0, line := 1, column := 1 }

/-- `func (l *Lexer) peekChar() byte`. -/
def peekChar (l : Lexer) : Nat := l.input.getD l.readPosition 0

/-- Go `unicode.IsLetter(rune(ch))` restricted to byte values 0-255
(the argument is always a single byte cast to a rune, i.e. a Latin-1
code point): ASCII letters plus the Latin-1 letter code points. -/
def goIsUnicodeLetterByte (c : Nat) : Bool :=
  (65 ≤ c && c ≤ 90) || (97 ≤ c && c ≤ 122) ||
  c = 170 || c = 181 || c = 186 ||
  (192 ≤ c && c ≤ 214) || (216 ≤ c && c ≤ 246) || (248 ≤ c && c ≤ 255)

/-- `func isLetter(ch byte) bool`. -/
def isLetter (c : Nat) : Bool := goIsUnicodeLetterByte c || c = 95

/-- `func isDigit(ch byte) bool` (`unicode.IsDigit` on a byte-sized rune
is true exactly for ASCII digits). -/
def isDigit (c : Nat) : Bool := 48 ≤ c && c ≤ 57

/-- Fuel measure for the lexer's character loops: each loop iteration
does one `readChar` and only continues while `ch ≠ 0`; `readChar`
strictly decreases this measure whenever `ch ≠ 0`. -/
def lexMeasure (l : Lexer) : Nat :=
  (if l.ch = 0 then 0 else 1) + (l.input.length + 1 - l.readPosition)

/-- Loop body of `func (l *Lexer) skipWhitespace()`. -/
def skipWhitespaceF : Nat → Lexer → Lexer
  | 0, l => l
  | f+1, l =>
    if l.ch = 32 ∨ l.ch = 9 ∨ l.ch = 10 ∨ l.ch = 13 then skipWhitespaceF f (readChar l) else l

/-- `func (l *Lexer) skipWhitespace()`. -/
def skipWhitespace (l : Lexer) : Lexer := skipWhitespaceF (lexMeasure l) l

/-- Loop of `func (l *Lexer) skipComment()` (runs while `ch ≠ '\n'` and `ch ≠ 0`). -/
def skipCommentLoopF : Nat → Lexer → Lexer
  | 0, l => l
  | f+1, l => if l.ch ≠ 10 ∧ l.ch ≠ 0 then skipCommentLoopF f (readChar l) else l

/-- `func (l *Lexer) skipComment()`: guarded by `ch == '/' && peekChar() == '/'`. -/
def skipComment (l : Lexer) : Lexer :=
  if l.ch = 47 ∧ peekChar l = 47 then skipCommentLoopF (lexMeasure l) l else l

/-- Go slice `l.input[a:b]`. -/
def sliceBytes (input : List Nat) (a b : Nat) : List Nat := (input.drop a).take (b - a)

/-- Loop of `func (l *Lexer) readIdentifier()`. -/
def readIdentLoopF : Nat → Lexer → Lexer
  | 0, l => l
  | f+1, l => if isLetter l.ch || isDigit l.ch then readIdentLoopF f (readChar l) else l

/-- `func (l *Lexer) readIdentifier() string`. -/
def readIdentifier (l : Lexer) : List Nat × Lexer :=
  let start := l.position
  let l1 := readIdentLoopF (lexMeasure l) l
  (sliceBytes l1.input start l1.position, l1)

/-- Loop of `func (l *Lexer) readNumber()`. -/
def readNumberLoopF : Nat → Lexer → Lexer
  | 0, l => l
  | f+1, l => if isDigit l.ch then readNumberLoopF f (readChar l) else l

/-- `func (l *Lexer) readNumber() string`. -/
def readNumber (l : Lexer) : List Nat × Lexer :=
  let start := l.position
  let l1 := readNumberLoopF (lexMeasure l) l
  (sliceBytes l1.input start l1.position, l1)

/-- Loop of `func (l *Lexer) readString()` (runs while `ch ≠ '"'` and `ch ≠ 0`). -/
def readStringLoopF : Nat → Lexer → Lexer
  | 0, l => l
  | f+1, l => if l.ch ≠ 34 ∧ l.ch ≠ 0 then readStringLoopF f (readChar l) else l

/-- `func (l *Lexer) readString() string`: skip the opening quote, scan to
a closing quote or end of input; an unterminated literal is returned
as scanned, a terminated one also consumes the closing quote. -/
def readString (l : Lexer) : List Nat × Lexer :=
  let l1 := readChar l
  let start := l1.position
  let l2 := readStringLoopF (lexMeasure l1) l1
  if l2.ch = 0 then (sliceBytes l2.input start l2.position, l2)
  else (sliceBytes l2.input start l2.position, readChar l2)

/-- The `TokenType` string constants of lexer.go as a closed enumeration. -/
inductive TokenType where
  | ILLEGAL | EOF
  | IDENT | INT | STRING
  | ASSIGN | EQ | NOT_EQ | PLUS | MINUS | BANG | ASTERISK | SLASH
  | LT | GT | LE | GE
  | COMMA | SEMICOLON | LPAREN | RPAREN | LBRACE | RBRACE
  | SUN | SUNA | AGAR | MAGAR | GLOW | FHEK | YAS | NAH | GRIND
deriving Repr, DecidableEq

/-- `type Token struct`. -/
structure Token where
  type : TokenType
  literal : List Nat
  line : Nat
  column : Nat
deriving Repr, DecidableEq

/-- `func lookupIdent(ident string) TokenType`: the keyword table. -/
def lookupIdent (ident : List Nat) : TokenType :=
  if ident = strBytes "sun" then .SUN
  else if ident = strBytes "suna" then .SUNA
  else if ident = strBytes "agar" then .AGAR
  else if ident = strBytes "magar" then .MAGAR
  else if ident = strBytes "glow" then .GLOW
  else if ident = strBytes "fhek" then .FHEK
  else if ident = strBytes "yas" then .YAS
  else if ident = strBytes "nah" then .NAH
  else if ident = strBytes "grind" then .GRIND
  else .IDENT

/-- `func newToken(...) Token`. -/
def newToken (t : TokenType) (literal : List Nat) (line column : Nat) : Token :=
  { type := t, literal := literal, line := line, column := column }

/-- Body of `func (l *Lexer) NextToken() Token`, fuel-indexed because the
comment branch restarts the whole function.  Go falls through to a final
`l.readChar()` for the one- and two-character tokens, which is applied
in each such branch here; the string / identifier / number / fuel-out
branches return without that final advance, as in the source. -/
def nextTokenF : Nat → Lexer → Token × Lexer
  | 0, l => ({ type := .EOF, literal := [], line := l.line, column := l.column }, l)
  | f+1, l0 =>
    let l := skipComment (skipWhitespace l0)
    if l.ch = 61 then
      if peekChar l = 61 then
        let l1 := readChar l
        ({ type := .EQ, literal := [l.ch, l1.ch], line := l1.line, column := l1.column },
         readChar l1)
      else (newToken .ASSIGN [l.ch] l.line l.column, readChar l)
    else if l.ch = 33 then
      if peekChar l = 61 then
        let l1 := readChar l
        ({ type := .NOT_EQ, literal := [l.ch, l1.ch], line := l1.line, column := l1.column },
         readChar l1)
      else (newToken .BANG [l.ch] l.line l.column, readChar l)
    else if l.ch = 43 then (newToken .PLUS [l.ch] l.line l.column, readChar l)
    else if l.ch = 45 then (newToken .MINUS [l.ch] l.line l.column, readChar l)
    else if l.ch = 42 then (newToken .ASTERISK [l.ch] l.line l.column, readChar l)
    else if l.ch = 47 then
      if peekChar l = 47 then nextTokenF f (skipComment (readChar l))
      else (newToken .SLASH [l.ch] l.line l.column, readChar l)
    else if l.ch = 60 then
      if peekChar l = 61 then
        let l1 := readChar l
        ({ type := .LE, literal := [l.ch, l1.ch], line := l1.line, column := l1.column },
         readChar l1)
      else (newToken .LT [l.ch] l.line l.column, readChar l)
    else if l.ch = 62 then
      if peekChar l = 61 then
        let l1 := readChar l
        ({ type := .GE, literal := [l.ch, l1.ch], line := l1.line, column := l1.column },
         readChar l1)
      else (newToken .GT [l.ch] l.line l.column, readChar l)
    else if l.ch = 44 then (newToken .COMMA [l.ch] l.line l.column, readChar l)
    else if l.ch = 59 then (newToken .SEMICOLON [l.ch] l.line l.column, readChar l)
    else if l.ch = 40 then (newToken .LPAREN [l.ch] l.line l.column, readChar l)
    else if l.ch = 41 then (newToken .RPAREN [l.ch] l.line l.column, readChar l)
    else if l.ch = 123 then (newToken .LBRACE [l.ch] l.line l.column, readChar l)
    else if l.ch = 125 then (newToken .RBRACE [l.ch] l.line l.column, readChar l)
    else if l.ch = 34 then
      let (s, l2) := readString l
      ({ type := .STRING, literal := s, line := l2.line, column := l2.column }, l2)
    else if l.ch = 0 then
      ({ type := .EOF, literal := [], line := l.line, column := l.column }, readChar l)
    else if isLetter l.ch then
      let (s, l2) := readIdentifier l
      ({ type := lookupIdent s, literal := s, line := l2.line, column := l2.column }, l2)
    else if isDigit l.ch then
      let (s, l2) := readNumber l
      ({ type := .INT, literal := s, line := l2.line, column := l2.column }, l2)
    else (newToken .ILLEGAL [l.ch] l.line l.column, readChar l)

/-- `func (l *Lexer) NextToken() Token`: the fuel `lexMeasure l + 1` is
sufficient (the comment branch strictly decreases `lexMeasure`). -/
def nextToken (l : Lexer) : Token × Lexer := nextTokenF (lexMeasure l + 1) l

/-- Repeatedly call `nextToken` until (and including) the first EOF token. -/
def tokenizeF : Nat → Lexer → List Token
  | 0, _ => []
  | f+1, l =>
    let (t, l1) := nextToken l
    if t.type = .EOF then [t] else t :: tokenizeF f l1

/-- Token stream of a lexer state; `input.length + 2` calls always reach EOF
because each call advances `readPosition` by at least one. -/
def tokenize (l : Lexer) : List Token := tokenizeF (l.input.length + 2) l

/-! ## AST (frontend/parser/parser.go)

`Expression` and `Statement` as closed sums.  A Go `*BlockStatement`
(`Tok` plus `Statements`) is modelled as `Token × List St`; the optional
`Alternative` block is an `Option`.  The parser never returns a
statement with a nil field, so the Lean AST has no nil cases. -/

inductive Expr where
  | ident (token : Token) (value : List Nat)
  | num (token : Token) (value : Int)
  | strLit (token : Token) (value : List Nat)
  | binary (token : Token) (left : Expr) (operator : List Nat) (right : Expr)
deriving Repr

inductive St where
  | printS (tok : Token) (value : Expr)
  | assignS (tok : Token) (nameTok : Token) (name : List Nat) (value : Expr)
  | ifS (tok : Token) (cond : Expr) (conseq : Token × List St) (alt : Option (Token × List St))
deriving Repr

compile_inductive% St

/-! ## Diagnostics and output

Every `fmt.Printf`/`fmt.Println` of the pipeline appends one event to a
single ordered stream.  A `Printf` diagnostic call site is modelled by
one `Diag` constructor carrying exactly the dynamic data it formats
(source position plus the formatted extras); `Println` of a value is
`Out.printed` of the value's rendered bytes.  Dead diagnostic sites of
the Go code (nil-AST checks, unknown-node defaults) have no
counterpart because the Lean AST is a closed sum without nil. -/

inductive Diag where
  | invalidStatement (line col : Nat) (got : TokenType)
  | expectedIdentAfterSun (line col : Nat) (got : TokenType)
  | expectedAssignAfterIdent (line col : Nat) (got : TokenType)
  | expectedExprAfterAssign (line col : Nat) (got : TokenType)
  | expectedExprAfterSuna (line col : Nat) (got : TokenType)
  | expectedCondAfterAgar (line col : Nat) (got : TokenType)
  | expectedLBraceAfterCond (line col : Nat) (got : TokenType)
  | invalidBlockAfterAgar (line col : Nat)
  | expectedLBraceAfterMagar (line col : Nat) (got : TokenType)
  | invalidBlockAfterMagar (line col : Nat)
  | expectedRBrace (line col : Nat) (got : TokenType)
  | expectedNumberAfterMinus (line col : Nat) (got : TokenType)
  | invalidNumber (line col : Nat) (lit : List Nat)
  | expectedExprAfterOp (line col : Nat) (opLit : List Nat)
  | expectedPrimary (line col : Nat) (got : TokenType)
  | invalidExprInPrint (line col : Nat)
  | invalidExprInAssignment (line col : Nat)
  | invalidCondInIf (line col : Nat)
  | undefinedVariable (line col : Nat) (name : List Nat)
  | divisionByZero (line col : Nat)
  | invalidOperation (line col : Nat) (op leftStr rightStr : List Nat)
deriving Repr, DecidableEq

inductive Out where
  | printed (line : List Nat)
  | diag (d : Diag)
deriving Repr, DecidableEq

/-! ## Parser (frontend/parser/parser.go)

The Go parser holds a lexer and pulls tokens lazily, but the lexer is a
pure function of its state and prints nothing, so the token stream can
be materialised first: `rest` is the remaining token stream (ending with
the first EOF token), and once it is exhausted every further `nextToken`
yields that same EOF token again (`eofT`), which is what the Go lexer
does after end of input. -/

structure PSt where
  rest : List Token
  eofT : Token
deriving Repr

/-- `p.curToken`. -/
def curTok (p : PSt) : Token := p.rest.headD p.eofT

/-- `p.nextToken()`. -/
def adv (p : PSt) : PSt := { p with rest := p.rest.tail }

/-- The `for p.curToken.Type == lexer.SEMICOLON { p.nextToken() }` loops. -/
def skipSemis (p : PSt) : PSt :=
  { p with rest := p.rest.dropWhile (fun t => t.type = .SEMICOLON) }

/-- Precedence constants of parser.go. -/
def LOWEST : Nat := 1
def EQUALS : Nat := 2
def LESSGREATER : Nat := 3
def SUM : Nat := 4
def PRODUCT : Nat := 5

/-- The `precedences` map together with the `LOWEST` default of
`getPrecedence`/`getCurrentPrecedence` (no entry for any other token
type; in particular there is no `%` operator token at all). -/
def getPrecedence (t : TokenType) : Nat :=
  match t with
  | .EQ => EQUALS
  | .NOT_EQ => EQUALS
  | .LT => LESSGREATER
  | .GT => LESSGREATER
  | .LE => LESSGREATER
  | .GE => LESSGREATER
  | .PLUS => SUM
  | .MINUS => SUM
  | .ASTERISK => PRODUCT
  | .SLASH => PRODUCT
  | _ => LOWEST

/-- `func isOperator(tokenType lexer.TokenType) bool`. -/
def isOperator (t : TokenType) : Bool :=
  t = .PLUS || t = .MINUS || t = .ASTERISK || t = .SLASH ||
  t = .EQ || t = .NOT_EQ || t = .LT || t = .GT || t = .LE || t = .GE

/-- Digit-run value. -/
def digitsToNat (l : List Nat) : Nat := l.foldl (fun acc d => acc * 10 + (d - 48)) 0

/-- Model of Go `strconv.ParseInt(lit, 10, 64)` as applied to the
lexer's INT literals (nonempty runs of ASCII digits): the numeric value
when it fits in int64, an error otherwise. -/
def parseIntLit (lit : List Nat) : Option Int :=
  if lit ≠ [] ∧ lit.all (fun c => isDigit c) ∧ digitsToNat lit ≤ 9223372036854775807 then
    some (digitsToNat lit)
  else none

/-- Call descriptors for the mutually recursive parser functions; the
fuel-indexed `parseF` below interprets them.  `binLoop` is the binary
operator loop inside `parseExpression`, `blockLoop` the statement loop
inside `parseBlockStatement`, `progLoop` the loop of `ParseProgram`. -/
inductive PCall where
  | expr (prec : Nat) (p : PSt)
  | binLoop (prec : Nat) (left : Expr) (p : PSt)
  | stmt (p : PSt)
  | printStmt (p : PSt)
  | ifStmt (p : PSt)
  | block (p : PSt)
  | blockLoop (btok : Token) (acc : List St) (p : PSt)
  | progLoop (acc : List St) (p : PSt)

/-- Results of the parser functions (one constructor per result type). -/
inductive PVal where
  | exprV (e : Option Expr)
  | stmtV (s : Option St)
  | blockV (b : Option (Token × List St))
  | progV (ss : List St)

/-- The parser proper: a faithful, fuel-indexed rendering of
`parseExpression` (with its operator loop), `parseStatement`,
`parsePrintStatement`, `parseIfStatement`, `parseBlockStatement` (with
its statement loop) and `ParseProgram` from parser.go.  Each recursive
call spends one unit of fuel; `parseProgram` below supplies fuel that
is sufficient (theorems prove the result is fuel-stable). -/
def parseF : Nat → PCall → PVal × PSt × List Out
  | 0, c =>
    match c with
    | .expr _ p => (.exprV none, p, [])
    | .binLoop _ left p => (.exprV (some left), p, [])
    | .stmt p => (.stmtV none, p, [])
    | .printStmt p => (.stmtV none, p, [])
    | .ifStmt p => (.stmtV none, p, [])
    | .block p => (.blockV none, p, [])
    | .blockLoop _ _ p => (.blockV none, p, [])
    | .progLoop acc p => (.progV acc, p, [])
  | f+1, .expr prec p =>
    if (curTok p).type = .MINUS then
      let tok := curTok p
      let p1 := adv p
      if (curTok p1).type ≠ .INT then
        (.exprV none, p1,
         [.diag (.expectedNumberAfterMinus (curTok p1).line (curTok p1).column (curTok p1).type)])
      else
        match parseIntLit (curTok p1).literal with
        | none =>
          (.exprV none, p1,
           [.diag (.invalidNumber (curTok p1).line (curTok p1).column (curTok p1).literal)])
        | some v => parseF f (.binLoop prec (.num tok (-v)) (adv p1))
    else
      match (curTok p).type with
      | .INT =>
        match parseIntLit (curTok p).literal with
        | none =>
          (.exprV none, p,
           [.diag (.invalidNumber (curTok p).line (curTok p).column (curTok p).literal)])
        | some v => parseF f (.binLoop prec (.num (curTok p) v) (adv p))
      | .STRING => parseF f (.binLoop prec (.strLit (curTok p) (curTok p).literal) (adv p))
      | .IDENT => parseF f (.binLoop prec (.ident (curTok p) (curTok p).literal) (adv p))
      | _ =>
        (.exprV none, p,
         [.diag (.expectedPrimary (curTok p).line (curTok p).column (curTok p).type)])
  | f+1, .binLoop prec left p =>
    if (curTok p).type ≠ .EOF ∧ (curTok p).type ≠ .SEMICOLON ∧
       (curTok p).type ≠ .RBRACE ∧ (curTok p).type ≠ .LBRACE ∧
       prec < getPrecedence (curTok p).type ∧ isOperator (curTok p).type then
      let op := curTok p
      let p1 := adv p
      match parseF f (.expr (getPrecedence op.type) p1) with
      | (.exprV none, p2, ds) =>
        (.exprV none, p2,
         ds ++ [.diag (.expectedExprAfterOp (curTok p2).line (curTok p2).column op.literal)])
      | (.exprV (some right), p2, ds) =>
        let (v, p3, ds2) := parseF f (.binLoop prec (.binary op left op.literal right) p2)
        (v, p3, ds ++ ds2)
      | other => other
    else (.exprV (some left), p, [])
  | f+1, .stmt p =>
    match (curTok p).type with
    | .SUN =>
      let tok := curTok p
      let p1 := adv p
      if (curTok p1).type ≠ .IDENT then
        (.stmtV none, p1,
         [.diag (.expectedIdentAfterSun (curTok p1).line (curTok p1).column (curTok p1).type)])
      else
        let ntok := curTok p1
        let p2 := adv p1
        if (curTok p2).type ≠ .ASSIGN then
          (.stmtV none, p2,
           [.diag (.expectedAssignAfterIdent (curTok p2).line (curTok p2).column (curTok p2).type)])
        else
          let p3 := adv p2
          match parseF f (.expr LOWEST p3) with
          | (.exprV none, p4, ds) =>
            (.stmtV none, p4,
             ds ++ [.diag (.expectedExprAfterAssign (curTok p4).line (curTok p4).column (curTok p4).type)])
          | (.exprV (some v), p4, ds) =>
            (.stmtV (some (.assignS tok ntok ntok.literal v)), p4, ds)
          | (_, p4, ds) => (.stmtV none, p4, ds)
    | .SUNA => parseF f (.printStmt p)
    | .AGAR => parseF f (.ifStmt p)
    | _ =>
      (.stmtV none, p,
       [.diag (.invalidStatement (curTok p).line (curTok p).column (curTok p).type)])
  | f+1, .printStmt p =>
    let tok := curTok p
    let p1 := adv p
    match parseF f (.expr LOWEST p1) with
    | (.exprV none, p2, ds) =>
      (.stmtV none, p2,
       ds ++ [.diag (.expectedExprAfterSuna (curTok p2).line (curTok p2).column (curTok p2).type)])
    | (.exprV (some v), p2, ds) => (.stmtV (some (.printS tok v)), p2, ds)
    | (_, p2, ds) => (.stmtV none, p2, ds)
  | f+1, .ifStmt p =>
    let tok := curTok p
    let p1 := adv p
    match parseF f (.expr LOWEST p1) with
    | (.exprV none, p2, ds) =>
      (.stmtV none, p2,
       ds ++ [.diag (.expectedCondAfterAgar (curTok p2).line (curTok p2).column (curTok p2).type)])
    | (.exprV (some cond), p2, ds) =>
      if (curTok p2).type ≠ .LBRACE then
        (.stmtV none, p2,
         ds ++ [.diag (.expectedLBraceAfterCond (curTok p2).line (curTok p2).column (curTok p2).type)])
      else
        match parseF f (.block p2) with
        | (.blockV none, p3, ds2) =>
          (.stmtV none, p3,
           ds ++ ds2 ++ [.diag (.invalidBlockAfterAgar (curTok p3).line (curTok p3).column)])
        | (.blockV (some conseq), p3, ds2) =>
          let p4 := adv p3
          let p5 := skipSemis p4
          if (curTok p5).type = .MAGAR then
            let p6 := adv p5
            if (curTok p6).type ≠ .LBRACE then
              (.stmtV none, p6,
               ds ++ ds2 ++
                 [.diag (.expectedLBraceAfterMagar (curTok p6).line (curTok p6).column (curTok p6).type)])
            else
              match parseF f (.block p6) with
              | (.blockV none, p7, ds3) =>
                (.stmtV none, p7,
                 ds ++ ds2 ++ ds3 ++
                   [.diag (.invalidBlockAfterMagar (curTok p7).line (curTok p7).column)])
              | (.blockV (some alt), p7, ds3) =>
                (.stmtV (some (.ifS tok cond conseq (some alt))), adv p7, ds ++ ds2 ++ ds3)
              | (_, p7, ds3) => (.stmtV none, p7, ds ++ ds2 ++ ds3)
          else (.stmtV (some (.ifS tok cond conseq none)), p5, ds ++ ds2)
        | (_, p3, ds2) => (.stmtV none, p3, ds ++ ds2)
    | (_, p2, ds) => (.stmtV none, p2, ds)
  | f+1, .block p => parseF f (.blockLoop (curTok p) [] (adv p))
  | f+1, .blockLoop btok acc p =>
    if (curTok p).type ≠ .RBRACE ∧ (curTok p).type ≠ .EOF then
      match parseF f (.stmt p) with
      | (.stmtV st, p1, ds) =>
        let next : List St × PSt := match st with
          | some s => (acc ++ [s], p1)
          | none => (acc, adv p1)
        let (v, p3, ds2) := parseF f (.blockLoop btok next.1 (skipSemis next.2))
        (v, p3, ds ++ ds2)
      | (_, p1, ds) => (.blockV none, p1, ds)
    else
      if (curTok p).type ≠ .RBRACE then
        (.blockV none, p,
         [.diag (.expectedRBrace (curTok p).line (curTok p).column (curTok p).type)])
      else (.blockV (some (btok, acc)), p, [])
  | f+1, .progLoop acc p =>
    if (curTok p).type ≠ .EOF then
      match parseF f (.stmt p) with
      | (.stmtV st, p1, ds) =>
        let next : List St × PSt × List Out := match st with
          | some s => (acc ++ [s], p1, ds)
          | none =>
            (acc, adv p1,
             ds ++ [.diag (.invalidStatement (curTok p1).line (curTok p1).column (curTok p1).type)])
        let (v, p3, ds2) := parseF f (.progLoop next.1 (skipSemis next.2.1))
        (v, p3, next.2.2 ++ ds2)
      | (_, p1, ds) => (.progV acc, p1, ds)
    else (.progV acc, p, [])

/-- The `blockLoop` result of `parseBlockStatement` ends with the
`curToken.Type != RBRACE` check of the Go function, which is folded into
`blockLoop`'s exit branch above; `block` itself records the `{` token
and advances, as the Go function does. -/
def parserFuel (p : PSt) : Nat := 5 * p.rest.length + 10

/-- `func (p *Parser) parseExpression(precedence int) Expression`,
with diagnostics and final parser state. -/
def parseExpression (prec : Nat) (p : PSt) : Option Expr × PSt × List Out :=
  match parseF (parserFuel p) (.expr prec p) with
  | (.exprV e, p1, ds) => (e, p1, ds)
  | (_, p1, ds) => (none, p1, ds)

/-- `func (p *Parser) parseStatement() Statement`. -/
def parseStatement (p : PSt) : Option St × PSt × List Out :=
  match parseF (parserFuel p) (.stmt p) with
  | (.stmtV s, p1, ds) => (s, p1, ds)
  | (_, p1, ds) => (none, p1, ds)

/-- Default token used only to seed `eofT` when a token list is empty. -/
def dummyEofTok : Token := { type := .EOF, literal := [], line := 1, column := 1 }

/-- `func (p *Parser) ParseProgram() *Program` over a materialised token
stream (the list must end with the lexer's EOF token, which is also the
token every later pull would yield). -/
def parseProgramToks (toks : List Token) (eofT : Token) : List St × List Out :=
  match parseF (parserFuel { rest := toks, eofT := eofT }) (.progLoop [] { rest := toks, eofT := eofT }) with
  | (.progV ss, _, ds) => (ss, ds)
  | (_, _, ds) => ([], ds)

/-- Lex and parse a byte string: `parser.New(lexer.New(input), false)`
followed by `ParseProgram()`. -/
def parseProgram (input : List Nat) : List St × List Out :=
  let toks := tokenize (lexerNew input)
  parseProgramToks toks (toks.getLastD dummyEofTok)

/-- State component of a parser call descriptor. -/
def pstOf : PCall → PSt
  | .expr _ p => p
  | .binLoop _ _ p => p
  | .stmt p => p
  | .printStmt p => p
  | .ifStmt p => p
  | .block p => p
  | .blockLoop _ _ p => p
  | .progLoop _ p => p

def isStmtish : PCall → Prop
  | .stmt _ => True
  | .printStmt _ => True
  | .ifStmt _ => True
  | _ => False

def pOk (p q : PSt) : Prop := q.eofT = p.eofT ∧ q.rest.length ≤ p.rest.length

/-- Fuel bounds sufficient for each parser call (proved below). -/
def pcallBound : PCall → Nat
  | .expr _ p => 5 * p.rest.length + 3
  | .binLoop _ _ p => 5 * p.rest.length + 2
  | .stmt p => 5 * p.rest.length + 7
  | .printStmt p => 5 * p.rest.length + 4
  | .ifStmt p => 5 * p.rest.length + 6
  | .block p => 5 * p.rest.length + 5
  | .blockLoop _ _ p => 5 * p.rest.length + 8
  | .progLoop _ p => 5 * p.rest.length + 8

/-! ## Interpreter (core/interpreter/interpreter.go) -/

/-- `Object`: `IntObject` (int64) or `StringObject`. -/
inductive Object where
  | int (v : Int)
  | str (s : List Nat)
deriving Repr, DecidableEq

/-- The `Environment` map `store map[string]Object`, as an association
list; only lookup and update are ever performed on it. -/
abbrev Env := List (List Nat × Object)

/-- Map lookup `i.env.store[name]`. -/
def envGet (env : Env) (name : List Nat) : Option Object :=
  match env with
  | [] => none
  | (k, v) :: rest => if k = name then some v else envGet rest name

/-- Map update `i.env.store[name] = v`. -/
def envSet (env : Env) (name : List Nat) (v : Object) : Env :=
  match env with
  | [] => [(name, v)]
  | (k, w) :: rest => if k = name then (k, v) :: rest else (k, w) :: envSet rest name v

/-- Result of evaluating an expression: a value, the nil sentinel of the
Go code (`fail`), or a Go runtime panic (`crash`), which unwinds the
whole process (there is no `recover` anywhere in the repository). -/
inductive Ev where
  | ok (o : Object)
  | fail
  | crash
deriving Repr, DecidableEq

/-- Whether statement execution completed normally or the process died
in a runtime panic. -/
inductive Sig where
  | ok
  | crash
deriving Repr, DecidableEq

/-- `func boolToInt(b bool) int64`. -/
def boolToInt (b : Bool) : Int := if b then 1 else 0

/-- `func isTruthy(obj Object) bool`. -/
def isTruthy (o : Object) : Bool :=
  match o with
  | .int v => v ≠ 0
  | .str s => s.length > 0

/-- The `String()` method of the two object kinds: decimal for
`IntObject`, the raw text for `StringObject`. -/
def objectRender (o : Object) : List Nat :=
  match o with
  | .int v => decimalBytes v
  | .str s => s

/-- Go int64 `+`. -/
def i64add (a b : Int) : Int := wrap64 (a + b)
/-- Go int64 `-`. -/
def i64sub (a b : Int) : Int := wrap64 (a - b)
/-- Go int64 `*`. -/
def i64mul (a b : Int) : Int := wrap64 (a * b)
/-- Go int64 `/` (truncated division; `MinInt64 / -1` wraps to `MinInt64`). -/
def i64div (a b : Int) : Int := wrap64 (Int.tdiv a b)
/-- Go int64 `%` (remainder of truncated division). -/
def i64mod (a b : Int) : Int := wrap64 (Int.tmod a b)

/-- `func (i *Interpreter) evalBinaryExpression(...) Object`: the
int-int arithmetic/comparison switch, falling through to the
string-string concatenation check and then to the invalid-operation
diagnostic, exactly as the two typed `if` blocks of the source fall
through.  Go's `%` performs no divisor check (only `/` has one in the
source); an integer division or remainder by zero in Go is a runtime
panic that kills the process, modelled as `Ev.crash`. -/
def evalBinaryExpression (tok : Token) (left : Object) (op : List Nat) (right : Object) :
    List Out × Ev :=
  let typed : Option (List Out × Ev) :=
    match left, right with
    | .int a, .int b =>
      if op = strBytes "+" then some ([], .ok (.int (i64add a b)))
      else if op = strBytes "-" then some ([], .ok (.int (i64sub a b)))
      else if op = strBytes "*" then some ([], .ok (.int (i64mul a b)))
      else if op = strBytes "%" then
        some (if b = 0 then ([], .crash) else ([], .ok (.int (i64mod a b))))
      else if op = strBytes "/" then
        some (if b = 0 then ([.diag (.divisionByZero tok.line tok.column)], .fail)
              else ([], .ok (.int (i64div a b))))
      else if op = strBytes "==" then some ([], .ok (.int (boolToInt (decide (a = b)))))
      else if op = strBytes "!=" then some ([], .ok (.int (boolToInt (decide (a ≠ b)))))
      else if op = strBytes "<" then some ([], .ok (.int (boolToInt (decide (a < b)))))
      else if op = strBytes ">" then some ([], .ok (.int (boolToInt (decide (b < a)))))
      else if op = strBytes "<=" then some ([], .ok (.int (boolToInt (decide (a ≤ b)))))
      else if op = strBytes ">=" then some ([], .ok (.int (boolToInt (decide (b ≤ a)))))
      else none
    | .str x, .str y =>
      if op = strBytes "+" then some ([], .ok (.str (x ++ y))) else none
    | _, _ => none
  typed.getD
    ([.diag (.invalidOperation tok.line tok.column op (objectRender left) (objectRender right))],
     .fail)

/-- `func (i *Interpreter) evalExpression(expr parser.Expression) Object`:
literals evaluate to themselves, identifiers by environment lookup
(unbound is a diagnostic plus nil), binary expressions evaluate left
then right, short-circuiting on the first failure, then dispatch to
`evalBinaryExpression`.  The returned list carries the diagnostics
printed during evaluation, in order. -/
def evalExpression (env : Env) : Expr → List Out × Ev
  | .num _ v => ([], .ok (.int v))
  | .strLit _ s => ([], .ok (.str s))
  | .ident tok name =>
    match envGet env name with
    | some v => ([], .ok v)
    | none => ([.diag (.undefinedVariable tok.line tok.column name)], .fail)
  | .binary tok l op r =>
    match evalExpression env l with
    | (ds, .ok lv) =>
      (match evalExpression env r with
       | (ds2, .ok rv) =>
         let (ds3, res) := evalBinaryExpression tok lv op rv
         (ds ++ ds2 ++ ds3, res)
       | (ds2, .fail) => (ds ++ ds2, .fail)
       | (ds2, .crash) => (ds ++ ds2, .crash))
    | (ds, .fail) => (ds, .fail)
    | (ds, .crash) => (ds, .crash)

/-- Call descriptors for `evalStatement` and the statement-sequence
loops of `Interpret` and the if-branches. -/
inductive ECall where
  | one (s : St)
  | many (ss : List St)

/-- Fuel-indexed interpreter core: `evalStatement` (the `.one` cases)
and sequential execution of a statement list (the `.many` cases, used
by `Interpret` and by both if-branches).  Every recursive call descends
to a structurally smaller argument, so any fuel of at least the
argument's `sizeOf` gives the (unique) fixed point. -/
def evalF : Nat → Env → ECall → Env × List Out × Sig
  | 0, env, _ => (env, [], .ok)
  | f+1, env, .one s =>
    match s with
    | .printS tok v =>
      match evalExpression env v with
      | (ds, .ok o) => (env, ds ++ [.printed (objectRender o)], .ok)
      | (ds, .fail) => (env, ds ++ [.diag (.invalidExprInPrint tok.line tok.column)], .ok)
      | (ds, .crash) => (env, ds, .crash)
    | .assignS tok _ name v =>
      match evalExpression env v with
      | (ds, .ok o) => (envSet env name o, ds, .ok)
      | (ds, .fail) => (env, ds ++ [.diag (.invalidExprInAssignment tok.line tok.column)], .ok)
      | (ds, .crash) => (env, ds, .crash)
    | .ifS tok cond conseq alt =>
      match evalExpression env cond with
      | (ds, .crash) => (env, ds, .crash)
      | (ds, .fail) => (env, ds ++ [.diag (.invalidCondInIf tok.line tok.column)], .ok)
      | (ds, .ok c) =>
        if isTruthy c then
          let r := evalF f env (.many conseq.2)
          (r.1, ds ++ r.2.1, r.2.2)
        else
          match alt with
          | some a =>
            let r := evalF f env (.many a.2)
            (r.1, ds ++ r.2.1, r.2.2)
          | none => (env, ds, .ok)
  | _+1, env, .many [] => (env, [], .ok)
  | f+1, env, .many (s :: rest) =>
    let r1 := evalF f env (.one s)
    match r1.2.2 with
    | .crash => r1
    | .ok =>
      let r2 := evalF f r1.1 (.many rest)
      (r2.1, r1.2.1 ++ r2.2.1, r2.2.2)

/-- Fuel that suffices for a call. -/
def callWeight : ECall → Nat
  | .one s => sizeOf s
  | .many ss => sizeOf ss

/-- `func (i *Interpreter) evalStatement(stmt parser.Statement)`. -/
def evalStatement (env : Env) (s : St) : Env × List Out × Sig :=
  evalF (sizeOf s) env (.one s)

/-- Sequential execution of a statement list (the loop bodies of
`Interpret` and of the if-branches; the Go nil-statement guards are
vacuous here since the parser never emits nil statements). -/
def evalStmtList (env : Env) (ss : List St) : Env × List Out × Sig :=
  evalF (sizeOf ss) env (.many ss)

/-- `func (i *Interpreter) Interpret(program *parser.Program)` on a
fresh interpreter (`New()` starts with an empty environment): the
output stream it prints. -/
def interpret (prog : List St) : List Out := (evalStmtList [] prog).2.1

/-- The whole pipeline of `main.go` / the test: lex, parse, interpret;
parser diagnostics print during `ParseProgram`, before any interpreter
output. -/
def runSource (input : List Nat) : List Out :=
  let pr := parseProgram input
  pr.2 ++ interpret pr.1

/-! ## Auxiliary definitions for the specification theorems -/

/-- The 1-based (line, column) source position of index `i` in `input`,
following the counting discipline of `readChar`: a newline starts a new
line at column 1, a NUL byte does not advance the column (as in the
lexer, which never bumps `column` when `ch` is 0), any other byte
advances the column by one. -/
def posStep (lc : Nat × Nat) (b : Nat) : Nat × Nat :=
  if b = 10 then (lc.1 + 1, 1) else if b ≠ 0 then (lc.1, lc.2 + 1) else lc

def posLC (input : List Nat) (i : Nat) : Nat × Nat :=
  (input.take i).foldl posStep (1, 1)

/-- State invariant of every lexer state reachable from `lexerNew`:
`position` trails `readPosition` by one, `ch` caches the byte at
`position` (0 once past the end), and the `line`/`column` counters hold
the source position of index `readPosition` (clamped to the end), i.e.
one byte past the current character. -/
def lexInv (l : Lexer) : Prop :=
  l.readPosition = l.position + 1 ∧
  l.ch = l.input.getD l.position 0 ∧
  (l.line, l.column) = posLC l.input (min l.readPosition l.input.length)

instance (l : Lexer) : Decidable (lexInv l) := by
  unfold lexInv
  infer_instance

/-- Iterated `nextToken` states, to speak about repeated calls. -/
def lexerIter : Nat → Lexer → Lexer
  | 0, l => l
  | n+1, l => lexerIter n (nextToken l).2

/-- Observation used for C2: is this expression a `BinaryExpression`
with the given operator text? -/
def exprIsBinaryWithOp (e : Expr) (opLit : List Nat) : Bool :=
  match e with
  | .binary _ _ op _ => op = opLit
  | _ => false

/-- Programs built only from integer literals and `+ - *` (claim C4). -/
inductive IntExpr where
  | lit (n : Int)
  | add (a b : IntExpr)
  | sub (a b : IntExpr)
  | mul (a b : IntExpr)

/-- Token carried by the AST nodes of an `IntExpr` image (the token
fields do not influence evaluation of arithmetic). -/
def dummyTok : Token := newToken .INT [] 1 1

def intExprToExpr : IntExpr → Expr
  | .lit n => .num dummyTok n
  | .add a b => .binary dummyTok (intExprToExpr a) (strBytes "+") (intExprToExpr b)
  | .sub a b => .binary dummyTok (intExprToExpr a) (strBytes "-") (intExprToExpr b)
  | .mul a b => .binary dummyTok (intExprToExpr a) (strBytes "*") (intExprToExpr b)

/-- The mathematically exact (unbounded) value. -/
def intExprVal : IntExpr → Int
  | .lit n => n
  | .add a b => intExprVal a + intExprVal b
  | .sub a b => intExprVal a - intExprVal b
  | .mul a b => intExprVal a * intExprVal b

/-- Every literal fits in int64 (what the parser guarantees for
literals it produces). -/
def intExprLitsOk : IntExpr → Bool
  | .lit n => decide (-9223372036854775808 ≤ n) && decide (n ≤ 9223372036854775807)
  | .add a b => intExprLitsOk a && intExprLitsOk b
  | .sub a b => intExprLitsOk a && intExprLitsOk b
  | .mul a b => intExprLitsOk a && intExprLitsOk b


/-- Literal text of the ten operator token types (claim C7). -/
def opLiteral : TokenType → List Nat
  | .PLUS => strBytes "+"
  | .MINUS => strBytes "-"
  | .ASTERISK => strBytes "*"
  | .SLASH => strBytes "/"
  | .EQ => strBytes "=="
  | .NOT_EQ => strBytes "!="
  | .LT => strBytes "<"
  | .GT => strBytes ">"
  | .LE => strBytes "<="
  | .GE => strBytes ">="
  | _ => []

/-- An operator token at a fixed position (positions do not influence
how expressions nest). -/
def opTok (t : TokenType) : Token := newToken t (opLiteral t) 1 1

/-- An integer-literal token at a fixed position. -/
def intTok (s : String) : Token := newToken .INT (strBytes s) 1 1

/-! ## Interpreter fuel stability

Every recursive call of `evalF` descends to a structurally smaller
argument, so any fuel of at least `callWeight` computes the fixed
point; the wrappers `evalStatement`/`evalStmtList` therefore satisfy
the recursion equations of the Go functions. -/

theorem callWeight_pos (c : ECall) : 0 < callWeight c := by
  cases c with
  | one s => cases s <;> simp [callWeight]
  | many ss => cases ss <;> simp [callWeight]

theorem sizeOf_conseq_lt_ifS (tok : Token) (cond : Expr) (conseq : Token × List St)
    (alt : Option (Token × List St)) :
    sizeOf conseq.2 + 1 ≤ sizeOf (St.ifS tok cond conseq alt) := by
  obtain ⟨bt, ss⟩ := conseq
  simp
  omega

theorem sizeOf_alt_lt_ifS (tok : Token) (cond : Expr) (conseq : Token × List St)
    (a : Token × List St) :
    sizeOf a.2 + 1 ≤ sizeOf (St.ifS tok cond conseq (some a)) := by
  obtain ⟨bt, ss⟩ := a
  simp
  omega

theorem evalF_stable (f : Nat) :
    ∀ (env : Env) (c : ECall), callWeight c ≤ f →
      evalF f env c = evalF (callWeight c) env c := by
  induction f using Nat.strong_induction_on with
  | _ f IH =>
    intro env c hle
    have hpos := callWeight_pos c
    obtain ⟨w, hw⟩ : ∃ w, callWeight c = w + 1 := ⟨callWeight c - 1, by omega⟩
    obtain ⟨g, hg⟩ : ∃ g, f = g + 1 := ⟨f - 1, by omega⟩
    subst hg
    rw [hw]
    match c, hw with
    | .one s, hw =>
      match s, hw with
      | .printS tok v, hw => rfl
      | .assignS tok ntok name v, hw => rfl
      | .ifS tok cond conseq alt, hw =>
        have hc : callWeight (.many conseq.2) ≤ w := by
          have := sizeOf_conseq_lt_ifS tok cond conseq alt
          simp only [callWeight] at hw ⊢
          omega
        show evalF (g+1) env (.one (.ifS tok cond conseq alt))
            = evalF (w+1) env (.one (.ifS tok cond conseq alt))
        simp only [evalF]
        cases hres : evalExpression env cond with
        | mk ds r =>
          cases r with
          | crash => rfl
          | fail => rfl
          | ok cv =>
            by_cases ht : isTruthy cv
            · have h1 : evalF g env (.many conseq.2) = evalF (callWeight (.many conseq.2)) env (.many conseq.2) :=
                IH g (by omega) env _ (by omega)
              have h2 : evalF w env (.many conseq.2) = evalF (callWeight (.many conseq.2)) env (.many conseq.2) :=
                IH w (by omega) env _ hc
              simp [ht, h1, h2]
            · cases alt with
              | none => simp [ht]
              | some a =>
                have ha : callWeight (.many a.2) ≤ w := by
                  have := sizeOf_alt_lt_ifS tok cond conseq a
                  simp only [callWeight] at hw ⊢
                  omega
                have h1 : evalF g env (.many a.2) = evalF (callWeight (.many a.2)) env (.many a.2) :=
                  IH g (by omega) env _ (by omega)
                have h2 : evalF w env (.many a.2) = evalF (callWeight (.many a.2)) env (.many a.2) :=
                  IH w (by omega) env _ ha
                simp [ht, h1, h2]
    | .many [], hw => rfl
    | .many (s :: rest), hw =>
      have hw2 : sizeOf s + sizeOf rest = w := by
        have hx : sizeOf (s :: rest) = w + 1 := hw
        simp at hx
        omega
      have hgw : w ≤ g := by omega
      show evalF (g+1) env (.many (s :: rest)) = evalF (w+1) env (.many (s :: rest))
      simp only [evalF]
      have h1 : evalF g env (.one s) = evalF (sizeOf s) env (.one s) :=
        IH g (by omega) env (.one s) (show sizeOf s ≤ g by omega)
      have h2 : evalF w env (.one s) = evalF (sizeOf s) env (.one s) :=
        IH w (by omega) env (.one s) (show sizeOf s ≤ w by omega)
      rw [h1, h2]
      cases hone : evalF (sizeOf s) env (.one s) with
      | mk e1 rest1 =>
        cases rest1 with
        | mk o1 g1 =>
          cases g1 with
          | crash => rfl
          | ok =>
            have h3 : evalF g e1 (.many rest) = evalF (sizeOf rest) e1 (.many rest) :=
              IH g (by omega) e1 (.many rest) (show sizeOf rest ≤ g by omega)
            have h4 : evalF w e1 (.many rest) = evalF (sizeOf rest) e1 (.many rest) :=
              IH w (by omega) e1 (.many rest) (show sizeOf rest ≤ w by omega)
            simp [h3, h4]

/-- Two sufficient fuels compute the same result. -/
theorem evalF_eq_of_ge {f1 f2 : Nat} (env : Env) (c : ECall)
    (h1 : callWeight c ≤ f1) (h2 : callWeight c ≤ f2) : evalF f1 env c = evalF f2 env c :=
  (evalF_stable f1 env c h1).trans (evalF_stable f2 env c h2).symm

/-- Recursion equation: an empty statement list executes to nothing. -/
theorem evalStmtList_nil (env : Env) : evalStmtList env [] = (env, [], .ok) := rfl

/-- Recursion equation of the statement-sequence loop: run the head
statement, stop on a crash, otherwise continue in the updated
environment, concatenating output. -/
theorem evalStmtList_cons (env : Env) (s : St) (rest : List St) :
    evalStmtList env (s :: rest) =
      (let r1 := evalStatement env s
       match r1.2.2 with
       | .crash => r1
       | .ok =>
         let r2 := evalStmtList r1.1 rest
         (r2.1, r1.2.1 ++ r2.2.1, r2.2.2)) := by
  have hsz : sizeOf (s :: rest) = 1 + sizeOf s + sizeOf rest := by simp
  have h1 : evalStmtList env (s :: rest)
      = evalF (sizeOf s + sizeOf rest + 1) env (.many (s :: rest)) :=
    evalF_eq_of_ge env (.many (s :: rest))
      (show sizeOf (s :: rest) ≤ sizeOf (s :: rest) from le_refl _)
      (show sizeOf (s :: rest) ≤ sizeOf s + sizeOf rest + 1 by omega)
  rw [h1]
  show (let r1 := evalF (sizeOf s + sizeOf rest) env (.one s)
        match r1.2.2 with
        | .crash => r1
        | .ok =>
          let r2 := evalF (sizeOf s + sizeOf rest) r1.1 (.many rest)
          (r2.1, r1.2.1 ++ r2.2.1, r2.2.2)) = _
  have h2 : evalF (sizeOf s + sizeOf rest) env (.one s) = evalStatement env s :=
    evalF_eq_of_ge env (.one s)
      (show sizeOf s ≤ sizeOf s + sizeOf rest by omega)
      (show sizeOf s ≤ sizeOf s from le_refl _)
  rw [h2]
  cases hone : evalStatement env s with
  | mk e1 rest1 =>
    cases rest1 with
    | mk o1 g1 =>
      cases g1 with
      | crash => rfl
      | ok =>
        have h3 : evalF (sizeOf s + sizeOf rest) e1 (.many rest) = evalStmtList e1 rest :=
          evalF_eq_of_ge e1 (.many rest)
            (show sizeOf rest ≤ sizeOf s + sizeOf rest by omega)
            (show sizeOf rest ≤ sizeOf rest from le_refl _)
        simp [h3]

/-- Recursion equation: `evalStatement` on a print statement. -/
theorem evalStatement_printS (env : Env) (tok : Token) (v : Expr) :
    evalStatement env (.printS tok v) =
      ((match evalExpression env v with
        | (ds, .ok o) => (env, ds ++ [.printed (objectRender o)], .ok)
        | (ds, .fail) => (env, ds ++ [.diag (.invalidExprInPrint tok.line tok.column)], .ok)
        | (ds, .crash) => (env, ds, .crash)) : Env × List Out × Sig) := by
  have hpos := callWeight_pos (.one (.printS tok v))
  obtain ⟨k, hk⟩ : ∃ k, sizeOf (St.printS tok v) = k + 1 :=
    ⟨sizeOf (St.printS tok v) - 1, by
      have hx : 0 < sizeOf (St.printS tok v) := hpos
      omega⟩
  rw [evalStatement, hk]
  rfl

/-- Recursion equation: `evalStatement` on an assignment statement. -/
theorem evalStatement_assignS (env : Env) (tok ntok : Token) (name : List Nat) (v : Expr) :
    evalStatement env (.assignS tok ntok name v) =
      ((match evalExpression env v with
        | (ds, .ok o) => (envSet env name o, ds, .ok)
        | (ds, .fail) => (env, ds ++ [.diag (.invalidExprInAssignment tok.line tok.column)], .ok)
        | (ds, .crash) => (env, ds, .crash)) : Env × List Out × Sig) := by
  have hpos := callWeight_pos (.one (.assignS tok ntok name v))
  obtain ⟨k, hk⟩ : ∃ k, sizeOf (St.assignS tok ntok name v) = k + 1 :=
    ⟨sizeOf (St.assignS tok ntok name v) - 1, by
      have hx : 0 < sizeOf (St.assignS tok ntok name v) := hpos
      omega⟩
  rw [evalStatement, hk]
  rfl


/-! ## Concrete claim theorems -/

/-- C1: the spec says a runtime failure is always signaled upward as an
absence-of-result sentinel and never terminates the process, in
particular for `%` over two Integers with zero right operand.  The code
disagrees: `evalBinaryExpression` computes `leftInt.Value % rightInt.Value`
with no divisor check (only `/` has one), and a Go integer remainder by
zero is a runtime panic that kills the process (`Ev.crash` / `Sig.crash`
in this model), not a recoverable nil result. -/
theorem c1_percent_mod_zero_is_process_fault :
    evalBinaryExpression (newToken .ILLEGAL (strBytes "%") 1 8)
        (.int 5) (strBytes "%") (.int 0) = ([], .crash)
    ∧ evalStatement [] (.printS (newToken .SUNA (strBytes "suna") 1 6)
        (.binary (newToken .ILLEGAL (strBytes "%") 1 8)
          (.num (newToken .INT (strBytes "5") 1 7) 5) (strBytes "%")
          (.num (newToken .INT (strBytes "0") 1 10) 0))) = ([], [], .crash) :=
  ⟨rfl, rfl⟩

/-- C2 counterexample: `suna 7 % 3` is not tokenized and parsed into a
BinaryExpression with operator `%`.  The lexer has no case for `%`, so
it becomes an ILLEGAL token, and the program parses as a print of the
literal 7 alone (visibly not a BinaryExpression). -/
theorem c2_percent_counterexample :
    tokenize (lexerNew (strBytes "suna 7 % 3")) =
      [newToken .SUNA (strBytes "suna") 1 6, newToken .INT (strBytes "7") 1 8,
       newToken .ILLEGAL (strBytes "%") 1 9, newToken .INT (strBytes "3") 1 11,
       newToken .EOF [] 1 11]
    ∧ (parseProgram (strBytes "suna 7 % 3")).1 =
      [.printS (newToken .SUNA (strBytes "suna") 1 6)
        (.num (newToken .INT (strBytes "7") 1 8) 7)]
    ∧ exprIsBinaryWithOp (.num (newToken .INT (strBytes "7") 1 8) 7) (strBytes "%") = false :=
  ⟨rfl, rfl, rfl⟩

/-- C2 amended: the parser recognizes exactly the ten operator token
types `+ - * / == != < > <= >=` (there is no `%` operator token at
all); the character `%` lexes as an ILLEGAL token; `suna 7 % 3`
therefore parses as `suna 7` followed by two stray tokens, each
reported twice as an invalid statement. -/
theorem c2_percent_amended :
    (∀ t : TokenType, isOperator t = true ↔
      (t = .PLUS ∨ t = .MINUS ∨ t = .ASTERISK ∨ t = .SLASH ∨ t = .EQ ∨
       t = .NOT_EQ ∨ t = .LT ∨ t = .GT ∨ t = .LE ∨ t = .GE))
    ∧ (nextToken (lexerNew (strBytes "%"))).1.type = .ILLEGAL
    ∧ parseProgram (strBytes "suna 7 % 3") =
      ([.printS (newToken .SUNA (strBytes "suna") 1 6)
         (.num (newToken .INT (strBytes "7") 1 8) 7)],
       [.diag (.invalidStatement 1 9 .ILLEGAL), .diag (.invalidStatement 1 9 .ILLEGAL),
        .diag (.invalidStatement 1 11 .INT), .diag (.invalidStatement 1 11 .INT)]) :=
  ⟨by intro t; cases t <;> decide, rfl, rfl⟩

/-- C3 counterexample: the token returned for input `"ab\n"` starts at
source position line 1, column 1 (as `posLC` computes), but the lexer
records line 2, column 1 on it — the position after the newline that
follows the identifier, not the position of the token's first
character. -/
theorem c3_position_counterexample :
    (nextToken (lexerNew (strBytes "ab\n"))).1 =
      { type := .IDENT, literal := strBytes "ab", line := 2, column := 1 }
    ∧ posLC (strBytes "ab\n") 0 = (1, 1)
    ∧ ((2 : Nat), (1 : Nat)) ≠ ((1 : Nat), (1 : Nat)) :=
  ⟨rfl, rfl, by decide⟩

/-- C4 counterexample: `suna 9223372036854775807 + 1;` prints the
wrapped int64 value `-9223372036854775808`, not the mathematically
exact result `2^63 = 9223372036854775808`. -/
theorem c4_overflow_counterexample :
    runSource (strBytes "suna 9223372036854775807 + 1;") =
      [.printed (decimalBytes (-9223372036854775808))]
    ∧ (9223372036854775807 : Int) + 1 = 9223372036854775808
    ∧ decimalBytes (-9223372036854775808) ≠ decimalBytes 9223372036854775808 :=
  ⟨rfl, by decide, by decide⟩

/-- C5: the full pipeline on the example program prints exactly `2`,
`hello world`, `fuck off!`, in that order, with no diagnostics in the
output stream. -/
theorem c5_example_program :
    runSource (strBytes "sun number = 2; suna number; sun a = \"hello \"; sun b = \"world\"; suna a+b; agar number >= 10 \x7b suna \"nice one baby!\"; \x7d magar\x7b suna \"fuck off!\"; \x7d")
      = [.printed (strBytes "2"), .printed (strBytes "hello world"),
         .printed (strBytes "fuck off!")] :=
  rfl

/-- C6 counterexample: an integer division by zero inside a print
statement emits two diagnostics, not exactly one: the evaluator's
`Division by zero` and the statement's `Invalid expression in print`;
the process continues (`Sig.ok`) and the next statement still runs. -/
theorem c6_two_diagnostics_counterexample :
    evalStatement [] (.printS (newToken .SUNA (strBytes "suna") 1 6)
        (.binary (newToken .SLASH (strBytes "/") 1 8)
          (.num (newToken .INT (strBytes "1") 1 8) 1) (strBytes "/")
          (.num (newToken .INT (strBytes "0") 1 10) 0)))
      = ([], [.diag (.divisionByZero 1 8), .diag (.invalidExprInPrint 1 6)], .ok)
    ∧ ([Out.diag (.divisionByZero 1 8), Out.diag (.invalidExprInPrint 1 6)].length = 2)
    ∧ (2 : Nat) ≠ 1
    ∧ runSource (strBytes "suna 1/0; suna 2;") =
      [.diag (.divisionByZero 1 8), .diag (.invalidExprInPrint 1 6),
       .printed (strBytes "2")] :=
  ⟨rfl, rfl, by decide, rfl⟩


/-! ## Int64 wrapping lemmas and the C4 arithmetic theorem -/

theorem wrap64_eq_self {n : Int} (h1 : -9223372036854775808 ≤ n)
    (h2 : n ≤ 9223372036854775807) : wrap64 n = n := by
  unfold wrap64
  omega

theorem wrap64_emod (x : Int) :
    wrap64 x % 18446744073709551616 = x % 18446744073709551616 := by
  unfold wrap64
  omega

theorem wrap64_eq_of_emod_eq {a b : Int}
    (h : a % 18446744073709551616 = b % 18446744073709551616) : wrap64 a = wrap64 b := by
  unfold wrap64
  omega

theorem wrap64_add (a b : Int) : wrap64 (wrap64 a + wrap64 b) = wrap64 (a + b) := by
  apply wrap64_eq_of_emod_eq
  have ha := wrap64_emod a
  have hb := wrap64_emod b
  omega

theorem wrap64_sub (a b : Int) : wrap64 (wrap64 a - wrap64 b) = wrap64 (a - b) := by
  apply wrap64_eq_of_emod_eq
  have ha := wrap64_emod a
  have hb := wrap64_emod b
  omega

theorem wrap64_mul (a b : Int) : wrap64 (wrap64 a * wrap64 b) = wrap64 (a * b) := by
  apply wrap64_eq_of_emod_eq
  exact Int.ModEq.mul (wrap64_emod a) (wrap64_emod b)

/-- Evaluating the image of a literals-and-`+ - *` expression yields the
wrapped int64 value of its exact mathematical value, with no
diagnostics. -/
theorem evalExpression_intExpr (env : Env) :
    ∀ e : IntExpr, intExprLitsOk e = true →
      evalExpression env (intExprToExpr e) = ([], .ok (.int (wrap64 (intExprVal e)))) := by
  intro e
  induction e with
  | lit n =>
    intro h
    simp only [intExprLitsOk, Bool.and_eq_true, decide_eq_true_eq] at h
    simp [intExprToExpr, evalExpression, intExprVal, wrap64_eq_self h.1 h.2]
  | add a b iha ihb =>
    intro h
    simp only [intExprLitsOk, Bool.and_eq_true] at h
    have hbin : ∀ x y : Int, evalBinaryExpression dummyTok (.int x) (strBytes "+") (.int y)
        = ([], .ok (.int (i64add x y))) := fun x y => rfl
    simp [intExprToExpr, evalExpression, iha h.1, ihb h.2, hbin, intExprVal, i64add, wrap64_add]
  | sub a b iha ihb =>
    intro h
    simp only [intExprLitsOk, Bool.and_eq_true] at h
    have hbin : ∀ x y : Int, evalBinaryExpression dummyTok (.int x) (strBytes "-") (.int y)
        = ([], .ok (.int (i64sub x y))) := fun x y => rfl
    simp [intExprToExpr, evalExpression, iha h.1, ihb h.2, hbin, intExprVal, i64sub, wrap64_sub]
  | mul a b iha ihb =>
    intro h
    simp only [intExprLitsOk, Bool.and_eq_true] at h
    have hbin : ∀ x y : Int, evalBinaryExpression dummyTok (.int x) (strBytes "*") (.int y)
        = ([], .ok (.int (i64mul x y))) := fun x y => rfl
    simp [intExprToExpr, evalExpression, iha h.1, ihb h.2, hbin, intExprVal, i64mul, wrap64_mul]

/-- C4 amended: printing an integer-arithmetic expression built from
int64-range literals and `+ - *` prints exactly one line, the decimal
rendering of the value computed in wrapping (two's-complement) 64-bit
arithmetic; whenever the mathematically exact value fits in the signed
64-bit range, that printed value is the exact value. -/
theorem c4_wrap64_arithmetic (env : Env) (stok : Token) (e : IntExpr)
    (h : intExprLitsOk e = true) :
    evalStatement env (.printS stok (intExprToExpr e))
      = (env, [.printed (decimalBytes (wrap64 (intExprVal e)))], .ok)
    ∧ (-9223372036854775808 ≤ intExprVal e → intExprVal e ≤ 9223372036854775807 →
        wrap64 (intExprVal e) = intExprVal e) := by
  constructor
  · rw [evalStatement_printS, evalExpression_intExpr env e h]
    simp [objectRender]
  · intro h1 h2
    exact wrap64_eq_self h1 h2

/-- Witness for C4 amended: `2 + 3 * 4` prints `14`. -/
theorem c4_wrap64_arithmetic_witness :
    intExprLitsOk (.add (.lit 2) (.mul (.lit 3) (.lit 4))) = true
    ∧ evalStatement [] (.printS dummyTok (intExprToExpr (.add (.lit 2) (.mul (.lit 3) (.lit 4)))))
        = ([], [.printed (strBytes "14")], .ok) := by
  refine ⟨by decide, ?_⟩
  have h := (c4_wrap64_arithmetic [] dummyTok (.add (.lit 2) (.mul (.lit 3) (.lit 4))) (by decide)).1
  rw [h]
  rfl

/-! ## C8: assignment statement semantics -/

theorem envGet_envSet_self (env : Env) (name : List Nat) (v : Object) :
    envGet (envSet env name v) name = some v := by
  induction env with
  | nil => simp [envSet, envGet]
  | cons kv rest ih =>
    obtain ⟨k, w⟩ := kv
    by_cases hk : k = name
    · simp [envSet, hk, envGet]
    · simp [envSet, hk, envGet, ih]

/-- C8: an assignment statement evaluates its expression; on success the
name is bound (or rebound) to the resulting value; on failure the
statement's diagnostic is appended and the environment is returned
unchanged (so any prior binding keeps its previous value). -/
theorem c8_assignment_semantics (env : Env) (tok ntok : Token) (name : List Nat) (expr : Expr) :
    (∀ ds v, evalExpression env expr = (ds, .ok v) →
       evalStatement env (.assignS tok ntok name expr) = (envSet env name v, ds, .ok)
       ∧ envGet (envSet env name v) name = some v)
    ∧ (∀ ds, evalExpression env expr = (ds, .fail) →
       evalStatement env (.assignS tok ntok name expr)
         = (env, ds ++ [.diag (.invalidExprInAssignment tok.line tok.column)], .ok)) := by
  constructor
  · intro ds v h
    exact ⟨by rw [evalStatement_assignS, h], envGet_envSet_self env name v⟩
  · intro ds h
    rw [evalStatement_assignS, h]

/-- Witness for C8: rebinding `x` from 1 to 2 succeeds, and an
assignment whose expression fails (unbound identifier) leaves the
environment unchanged. -/
theorem c8_assignment_semantics_witness :
    (evalStatement [(strBytes "x", .int 1)]
        (.assignS dummyTok dummyTok (strBytes "x") (.num dummyTok 2))
      = (envSet [(strBytes "x", .int 1)] (strBytes "x") (.int 2), [], .ok)
      ∧ envGet (envSet [(strBytes "x", .int 1)] (strBytes "x") (.int 2)) (strBytes "x")
        = some (.int 2))
    ∧ evalStatement [(strBytes "x", .int 1)]
        (.assignS dummyTok dummyTok (strBytes "x") (.ident dummyTok (strBytes "y")))
      = ([(strBytes "x", .int 1)],
         [.diag (.undefinedVariable 1 1 (strBytes "y")),
          .diag (.invalidExprInAssignment 1 1)], .ok) := by
  constructor
  · exact (c8_assignment_semantics [(strBytes "x", .int 1)] dummyTok dummyTok
      (strBytes "x") (.num dummyTok 2)).1 [] (.int 2) rfl
  · exact (c8_assignment_semantics [(strBytes "x", .int 1)] dummyTok dummyTok
      (strBytes "x") (.ident dummyTok (strBytes "y"))).2
      [.diag (.undefinedVariable 1 1 (strBytes "y"))] rfl

/-! ## C6 amended: division by zero emits two diagnostics and execution continues -/

/-- C6 amended: a print statement whose expression is an integer
division with zero right operand (both operands evaluating cleanly to
Integers) emits exactly two diagnostics — `Division by zero` at the
operator token's position, then `Invalid expression in print` at the
statement's position — prints no output line, does not crash, and the
following statements run unchanged. -/
theorem c6_division_by_zero_diagnostics (env : Env) (stok tok : Token) (l r : Expr) (a : Int)
    (hl : evalExpression env l = ([], .ok (.int a)))
    (hr : evalExpression env r = ([], .ok (.int 0))) :
    evalStatement env (.printS stok (.binary tok l (strBytes "/") r))
      = (env, [.diag (.divisionByZero tok.line tok.column),
               .diag (.invalidExprInPrint stok.line stok.column)], .ok)
    ∧ ∀ rest : List St,
        evalStmtList env (.printS stok (.binary tok l (strBytes "/") r) :: rest)
        = ((evalStmtList env rest).1,
           [.diag (.divisionByZero tok.line tok.column),
            .diag (.invalidExprInPrint stok.line stok.column)] ++ (evalStmtList env rest).2.1,
           (evalStmtList env rest).2.2) := by
  have hbin : evalBinaryExpression tok (.int a) (strBytes "/") (.int 0)
      = ([.diag (.divisionByZero tok.line tok.column)], .fail) := rfl
  have hexpr : evalExpression env (.binary tok l (strBytes "/") r)
      = ([.diag (.divisionByZero tok.line tok.column)], .fail) := by
    simp [evalExpression, hl, hr, hbin]
  have hstmt : evalStatement env (.printS stok (.binary tok l (strBytes "/") r))
      = (env, [.diag (.divisionByZero tok.line tok.column),
               .diag (.invalidExprInPrint stok.line stok.column)], .ok) := by
    rw [evalStatement_printS, hexpr]
    simp
  refine ⟨hstmt, fun rest => ?_⟩
  rw [evalStmtList_cons]
  simp [hstmt]

/-- Witness for C6 amended: `suna 1/0` at concrete positions. -/
theorem c6_division_by_zero_diagnostics_witness :
    evalStatement [] (.printS dummyTok
        (.binary dummyTok (.num dummyTok 1) (strBytes "/") (.num dummyTok 0)))
      = ([], [.diag (.divisionByZero 1 1), .diag (.invalidExprInPrint 1 1)], .ok) := by
  exact (c6_division_by_zero_diagnostics [] dummyTok dummyTok
    (.num dummyTok 1) (.num dummyTok 0) 1 rfl rfl).1


/-! ## C7: precedence climbing -/

theorem isOperator_cases {t : TokenType} (h : isOperator t = true) :
    t = .PLUS ∨ t = .MINUS ∨ t = .ASTERISK ∨ t = .SLASH ∨ t = .EQ ∨
    t = .NOT_EQ ∨ t = .LT ∨ t = .GT ∨ t = .LE ∨ t = .GE := by
  cases t <;> revert h <;> decide

/-- C7: the four operator levels are ordered equality < relational <
additive < multiplicative, and for any two operators `t1`, `t2`, the
token sequence `1 t1 2 t2 3` parses right-nested when `t1` binds looser
than `t2` and left-nested otherwise — so consecutive operators of equal
precedence associate left-to-right (e.g. `a - b - c` is `(a - b) - c`)
and higher precedence binds tighter (e.g. `a + b * c` is `a + (b * c)`). -/
theorem c7_precedence_climbing :
    (EQUALS < LESSGREATER ∧ LESSGREATER < SUM ∧ SUM < PRODUCT ∧ LOWEST < EQUALS)
    ∧ (∀ t1 t2 : TokenType, isOperator t1 = true → isOperator t2 = true →
        (parseExpression LOWEST
          { rest := [intTok "1", opTok t1, intTok "2", opTok t2, intTok "3", dummyEofTok],
            eofT := dummyEofTok }).1
        = some (if getPrecedence t1 < getPrecedence t2 then
            .binary (opTok t1) (.num (intTok "1") 1) (opLiteral t1)
              (.binary (opTok t2) (.num (intTok "2") 2) (opLiteral t2) (.num (intTok "3") 3))
          else
            .binary (opTok t2)
              (.binary (opTok t1) (.num (intTok "1") 1) (opLiteral t1) (.num (intTok "2") 2))
              (opLiteral t2) (.num (intTok "3") 3))) := by
  refine ⟨by decide, ?_⟩
  intro t1 t2 h1 h2
  rcases isOperator_cases h1 with rfl|rfl|rfl|rfl|rfl|rfl|rfl|rfl|rfl|rfl <;>
    rcases isOperator_cases h2 with rfl|rfl|rfl|rfl|rfl|rfl|rfl|rfl|rfl|rfl <;> rfl

/-- Witness for C7: `1 - 2 - 3` parses as `(1 - 2) - 3` and
`1 + 2 * 3` parses as `1 + (2 * 3)`. -/
theorem c7_precedence_climbing_witness :
    (parseExpression LOWEST
        { rest := [intTok "1", opTok .MINUS, intTok "2", opTok .MINUS, intTok "3", dummyEofTok],
          eofT := dummyEofTok }).1
      = some (.binary (opTok .MINUS)
          (.binary (opTok .MINUS) (.num (intTok "1") 1) (opLiteral .MINUS) (.num (intTok "2") 2))
          (opLiteral .MINUS) (.num (intTok "3") 3))
    ∧ (parseExpression LOWEST
        { rest := [intTok "1", opTok .PLUS, intTok "2", opTok .ASTERISK, intTok "3", dummyEofTok],
          eofT := dummyEofTok }).1
      = some (.binary (opTok .PLUS) (.num (intTok "1") 1) (opLiteral .PLUS)
          (.binary (opTok .ASTERISK) (.num (intTok "2") 2) (opLiteral .ASTERISK)
            (.num (intTok "3") 3))) := by
  constructor
  · have h := c7_precedence_climbing.2 .MINUS .MINUS (by decide) (by decide)
    rw [if_neg (by decide)] at h
    exact h
  · have h := c7_precedence_climbing.2 .PLUS .ASTERISK (by decide) (by decide)
    rw [if_pos (by decide)] at h
    exact h



/-! ## Lexer state lemmas

Field behaviour of `readChar`, the fuel measure, and the reachability
invariant `lexInv`. -/

theorem readChar_input (l : Lexer) : (readChar l).input = l.input := by
  unfold readChar
  split_ifs <;> rfl

theorem readChar_readPosition (l : Lexer) :
    (readChar l).readPosition = l.readPosition + 1 := by
  unfold readChar
  split_ifs <;> rfl

theorem readChar_position (l : Lexer) : (readChar l).position = l.readPosition := by
  unfold readChar
  split_ifs <;> rfl

theorem readChar_ch (l : Lexer) : (readChar l).ch = l.input.getD l.readPosition 0 := by
  unfold readChar
  split_ifs <;> rfl

theorem readChar_line_column (l : Lexer) :
    ((readChar l).line, (readChar l).column)
      = posStep (l.line, l.column) (l.input.getD l.readPosition 0) := by
  unfold readChar posStep
  split_ifs <;> rfl

theorem getD_ne_zero_lt {input : List Nat} {i : Nat} (h : input.getD i 0 ≠ 0) :
    i < input.length := by
  by_contra hc
  exact h (List.getD_eq_default input 0 (by omega))

theorem lexMeasure_readChar_le (l : Lexer) : lexMeasure (readChar l) ≤ lexMeasure l := by
  unfold lexMeasure
  rw [readChar_input, readChar_readPosition, readChar_ch]
  by_cases h1 : l.input.getD l.readPosition 0 = 0
  · rw [if_pos h1]
    by_cases h2 : l.ch = 0
    · rw [if_pos h2]
      omega
    · rw [if_neg h2]
      omega
  · have hlt : l.readPosition < l.input.length := getD_ne_zero_lt h1
    rw [if_neg h1]
    by_cases h2 : l.ch = 0
    · rw [if_pos h2]
      omega
    · rw [if_neg h2]
      omega

theorem lexMeasure_readChar_lt {l : Lexer} (h : l.ch ≠ 0) :
    lexMeasure (readChar l) < lexMeasure l := by
  unfold lexMeasure
  rw [readChar_input, readChar_readPosition, readChar_ch, if_neg h]
  by_cases h1 : l.input.getD l.readPosition 0 = 0
  · rw [if_pos h1]
    omega
  · have hlt : l.readPosition < l.input.length := getD_ne_zero_lt h1
    rw [if_neg h1]
    omega

theorem posLC_zero (input : List Nat) : posLC input 0 = (1, 1) := rfl

theorem posLC_succ (input : List Nat) (i : Nat) (h : i < input.length) :
    posLC input (i + 1) = posStep (posLC input i) (input.getD i 0) := by
  unfold posLC
  rw [List.take_succ, List.getElem?_eq_getElem h, List.foldl_append]
  simp [List.getD, List.getElem?_eq_getElem h]

theorem posLC_stop (input : List Nat) (i : Nat) (h : input.length ≤ i) :
    posLC input i = posLC input input.length := by
  unfold posLC
  rw [List.take_of_length_le h, List.take_length]

theorem lexInv_readChar {l : Lexer} (h : lexInv l) : lexInv (readChar l) := by
  obtain ⟨h1, h2, h3⟩ := h
  refine ⟨?_, ?_, ?_⟩
  · rw [readChar_readPosition, readChar_position]
  · rw [readChar_ch, readChar_position, readChar_input]
  · rw [readChar_input, readChar_readPosition, readChar_line_column]
    by_cases hrp : l.readPosition < l.input.length
    · have hmin : min l.readPosition l.input.length = l.readPosition := by omega
      have hmin2 : min (l.readPosition + 1) l.input.length = l.readPosition + 1 := by omega
      rw [hmin2, posLC_succ l.input l.readPosition hrp]
      rw [hmin] at h3
      rw [h3]
    · have hge : l.input.length ≤ l.readPosition := by omega
      have h0 : l.input.getD l.readPosition 0 = 0 := List.getD_eq_default _ _ hge
      have hmin : min l.readPosition l.input.length = l.input.length := by omega
      have hmin2 : min (l.readPosition + 1) l.input.length = l.input.length := by omega
      rw [hmin2, h0]
      rw [hmin] at h3
      rw [← h3]
      rfl

theorem lexInv_lexerNew (input : List Nat) : lexInv (lexerNew input) := by
  unfold lexerNew
  refine ⟨?_, ?_, ?_⟩
  · rw [readChar_readPosition, readChar_position]
  · rw [readChar_ch, readChar_position, readChar_input]
  · rw [readChar_input, readChar_readPosition, readChar_line_column]
    by_cases hlen : 0 < input.length
    · have hmin : min (0 + 1) input.length = 1 := by omega
      rw [hmin]
      have hx := posLC_succ input 0 hlen
      rw [posLC_zero] at hx
      simpa using hx.symm
    · have h0 : input.getD 0 0 = 0 := List.getD_eq_default _ _ (by omega)
      have hmin : min (0 + 1) input.length = 0 := by omega
      rw [hmin]
      show posStep (1, 1) (input.getD 0 0) = posLC input 0
      rw [h0]
      rfl


/-! ## Lexer loop lemmas: each scanning loop preserves the invariant,
never moves `readPosition` backwards, keeps the input, and never
increases the fuel measure. -/

theorem skipWhitespaceF_state : ∀ (f : Nat) (l : Lexer), lexInv l →
    lexInv (skipWhitespaceF f l) ∧ l.readPosition ≤ (skipWhitespaceF f l).readPosition ∧
    (skipWhitespaceF f l).input = l.input ∧ lexMeasure (skipWhitespaceF f l) ≤ lexMeasure l := by
  intro f
  induction f with
  | zero => intro l h; exact ⟨h, le_refl _, rfl, le_refl _⟩
  | succ f ih =>
    intro l h
    by_cases hc : l.ch = 32 ∨ l.ch = 9 ∨ l.ch = 10 ∨ l.ch = 13
    · have heq : skipWhitespaceF (f+1) l = skipWhitespaceF f (readChar l) := by
        simp [skipWhitespaceF, hc]
      rw [heq]
      obtain ⟨i1, i2, i3, i4⟩ := ih (readChar l) (lexInv_readChar h)
      refine ⟨i1, ?_, ?_, ?_⟩
      · have hr := readChar_readPosition l
        omega
      · rw [i3, readChar_input]
      · exact le_trans i4 (lexMeasure_readChar_le l)
    · have heq : skipWhitespaceF (f+1) l = l := by simp [skipWhitespaceF, hc]
      rw [heq]
      exact ⟨h, le_refl _, rfl, le_refl _⟩

theorem skipCommentLoopF_state : ∀ (f : Nat) (l : Lexer), lexInv l →
    lexInv (skipCommentLoopF f l) ∧ l.readPosition ≤ (skipCommentLoopF f l).readPosition ∧
    (skipCommentLoopF f l).input = l.input ∧ lexMeasure (skipCommentLoopF f l) ≤ lexMeasure l := by
  intro f
  induction f with
  | zero => intro l h; exact ⟨h, le_refl _, rfl, le_refl _⟩
  | succ f ih =>
    intro l h
    by_cases hc : l.ch ≠ 10 ∧ l.ch ≠ 0
    · have heq : skipCommentLoopF (f+1) l = skipCommentLoopF f (readChar l) := by
        simp [skipCommentLoopF, hc]
      rw [heq]
      obtain ⟨i1, i2, i3, i4⟩ := ih (readChar l) (lexInv_readChar h)
      refine ⟨i1, ?_, ?_, ?_⟩
      · have hr := readChar_readPosition l
        omega
      · rw [i3, readChar_input]
      · exact le_trans i4 (lexMeasure_readChar_le l)
    · have heq : skipCommentLoopF (f+1) l = l := by simp [skipCommentLoopF, hc]
      rw [heq]
      exact ⟨h, le_refl _, rfl, le_refl _⟩

theorem readIdentLoopF_state : ∀ (f : Nat) (l : Lexer), lexInv l →
    lexInv (readIdentLoopF f l) ∧ l.readPosition ≤ (readIdentLoopF f l).readPosition ∧
    (readIdentLoopF f l).input = l.input ∧ lexMeasure (readIdentLoopF f l) ≤ lexMeasure l := by
  intro f
  induction f with
  | zero => intro l h; exact ⟨h, le_refl _, rfl, le_refl _⟩
  | succ f ih =>
    intro l h
    by_cases hc : (isLetter l.ch || isDigit l.ch) = true
    · have heq : readIdentLoopF (f+1) l = readIdentLoopF f (readChar l) := by
        simp [readIdentLoopF, hc]
      rw [heq]
      obtain ⟨i1, i2, i3, i4⟩ := ih (readChar l) (lexInv_readChar h)
      refine ⟨i1, ?_, ?_, ?_⟩
      · have hr := readChar_readPosition l
        omega
      · rw [i3, readChar_input]
      · exact le_trans i4 (lexMeasure_readChar_le l)
    · have heq : readIdentLoopF (f+1) l = l := by simp [readIdentLoopF, hc]
      rw [heq]
      exact ⟨h, le_refl _, rfl, le_refl _⟩

theorem readNumberLoopF_state : ∀ (f : Nat) (l : Lexer), lexInv l →
    lexInv (readNumberLoopF f l) ∧ l.readPosition ≤ (readNumberLoopF f l).readPosition ∧
    (readNumberLoopF f l).input = l.input ∧ lexMeasure (readNumberLoopF f l) ≤ lexMeasure l := by
  intro f
  induction f with
  | zero => intro l h; exact ⟨h, le_refl _, rfl, le_refl _⟩
  | succ f ih =>
    intro l h
    by_cases hc : isDigit l.ch = true
    · have heq : readNumberLoopF (f+1) l = readNumberLoopF f (readChar l) := by
        simp [readNumberLoopF, hc]
      rw [heq]
      obtain ⟨i1, i2, i3, i4⟩ := ih (readChar l) (lexInv_readChar h)
      refine ⟨i1, ?_, ?_, ?_⟩
      · have hr := readChar_readPosition l
        omega
      · rw [i3, readChar_input]
      · exact le_trans i4 (lexMeasure_readChar_le l)
    · have heq : readNumberLoopF (f+1) l = l := by simp [readNumberLoopF, hc]
      rw [heq]
      exact ⟨h, le_refl _, rfl, le_refl _⟩

theorem readStringLoopF_state : ∀ (f : Nat) (l : Lexer), lexInv l →
    lexInv (readStringLoopF f l) ∧ l.readPosition ≤ (readStringLoopF f l).readPosition ∧
    (readStringLoopF f l).input = l.input ∧ lexMeasure (readStringLoopF f l) ≤ lexMeasure l := by
  intro f
  induction f with
  | zero => intro l h; exact ⟨h, le_refl _, rfl, le_refl _⟩
  | succ f ih =>
    intro l h
    by_cases hc : l.ch ≠ 34 ∧ l.ch ≠ 0
    · have heq : readStringLoopF (f+1) l = readStringLoopF f (readChar l) := by
        simp [readStringLoopF, hc]
      rw [heq]
      obtain ⟨i1, i2, i3, i4⟩ := ih (readChar l) (lexInv_readChar h)
      refine ⟨i1, ?_, ?_, ?_⟩
      · have hr := readChar_readPosition l
        omega
      · rw [i3, readChar_input]
      · exact le_trans i4 (lexMeasure_readChar_le l)
    · have heq : readStringLoopF (f+1) l = l := by simp [readStringLoopF, hc]
      rw [heq]
      exact ⟨h, le_refl _, rfl, le_refl _⟩

theorem skipWhitespace_state (l : Lexer) (h : lexInv l) :
    lexInv (skipWhitespace l) ∧ l.readPosition ≤ (skipWhitespace l).readPosition ∧
    (skipWhitespace l).input = l.input ∧ lexMeasure (skipWhitespace l) ≤ lexMeasure l :=
  skipWhitespaceF_state (lexMeasure l) l h

theorem skipComment_state (l : Lexer) (h : lexInv l) :
    lexInv (skipComment l) ∧ l.readPosition ≤ (skipComment l).readPosition ∧
    (skipComment l).input = l.input ∧ lexMeasure (skipComment l) ≤ lexMeasure l := by
  unfold skipComment
  split_ifs with hg
  · exact skipCommentLoopF_state (lexMeasure l) l h
  · exact ⟨h, le_refl _, rfl, le_refl _⟩

theorem skipWhitespace_noop {l : Lexer} (h : ¬(l.ch = 32 ∨ l.ch = 9 ∨ l.ch = 10 ∨ l.ch = 13)) :
    skipWhitespace l = l := by
  unfold skipWhitespace
  cases hm : lexMeasure l with
  | zero => rfl
  | succ k => simp [skipWhitespaceF, h]

theorem skipComment_noop {l : Lexer} (h : ¬(l.ch = 47 ∧ peekChar l = 47)) :
    skipComment l = l := by
  unfold skipComment
  rw [if_neg h]

theorem readString_state (l : Lexer) (h : lexInv l) :
    lexInv (readString l).2 ∧ l.readPosition + 1 ≤ (readString l).2.readPosition ∧
    (readString l).2.input = l.input := by
  have h1 : lexInv (readChar l) := lexInv_readChar h
  obtain ⟨i1, i2, i3, i4⟩ := readStringLoopF_state (lexMeasure (readChar l)) (readChar l) h1
  have hr := readChar_readPosition l
  by_cases hz : (readStringLoopF (lexMeasure (readChar l)) (readChar l)).ch = 0
  · have he : (readString l).2 = readStringLoopF (lexMeasure (readChar l)) (readChar l) := by
      unfold readString
      simp [hz]
    rw [he]
    exact ⟨i1, by omega, by rw [i3, readChar_input]⟩
  · have he : (readString l).2
        = readChar (readStringLoopF (lexMeasure (readChar l)) (readChar l)) := by
      unfold readString
      simp [hz]
    rw [he]
    refine ⟨lexInv_readChar i1, ?_, ?_⟩
    · have hr2 := readChar_readPosition (readStringLoopF (lexMeasure (readChar l)) (readChar l))
      omega
    · rw [readChar_input, i3, readChar_input]

/-! ## NextToken advances the lexer

Every call preserves the invariant, strictly advances `readPosition`,
and leaves the input unchanged (claim C9). -/

theorem readIdentifier_snd (l : Lexer) :
    (readIdentifier l).2 = readIdentLoopF (lexMeasure l) l := rfl

theorem readNumber_snd (l : Lexer) :
    (readNumber l).2 = readNumberLoopF (lexMeasure l) l := rfl

theorem lexMeasure_pos {l : Lexer} (h : l.ch ≠ 0) : 0 < lexMeasure l := by
  unfold lexMeasure
  rw [if_neg h]
  omega

theorem readIdentLoopF_strict {l : Lexer} {f : Nat} (hinv : lexInv l)
    (hc : (isLetter l.ch || isDigit l.ch) = true) (hf : 1 ≤ f) :
    l.readPosition + 1 ≤ (readIdentLoopF f l).readPosition := by
  obtain ⟨k, rfl⟩ : ∃ k, f = k + 1 := ⟨f - 1, by omega⟩
  have heq : readIdentLoopF (k+1) l = readIdentLoopF k (readChar l) := by
    simp [readIdentLoopF, hc]
  rw [heq]
  obtain ⟨_, i2, _, _⟩ := readIdentLoopF_state k (readChar l) (lexInv_readChar hinv)
  have hr := readChar_readPosition l
  omega

theorem readNumberLoopF_strict {l : Lexer} {f : Nat} (hinv : lexInv l)
    (hc : isDigit l.ch = true) (hf : 1 ≤ f) :
    l.readPosition + 1 ≤ (readNumberLoopF f l).readPosition := by
  obtain ⟨k, rfl⟩ : ∃ k, f = k + 1 := ⟨f - 1, by omega⟩
  have heq : readNumberLoopF (k+1) l = readNumberLoopF k (readChar l) := by
    simp [readNumberLoopF, hc]
  rw [heq]
  obtain ⟨_, i2, _, _⟩ := readNumberLoopF_state k (readChar l) (lexInv_readChar hinv)
  have hr := readChar_readPosition l
  omega

theorem nextTokenF_adv (f : Nat) : ∀ l : Lexer, lexInv l → lexMeasure l + 1 ≤ f →
    lexInv (nextTokenF f l).2 ∧ l.readPosition < (nextTokenF f l).2.readPosition ∧
    (nextTokenF f l).2.input = l.input := by
  induction f using Nat.strong_induction_on with
  | _ f IH =>
    intro l hinv hf
    obtain ⟨g, rfl⟩ : ∃ g, f = g + 1 := ⟨f - 1, by omega⟩
    unfold nextTokenF
    set L := skipComment (skipWhitespace l) with hL
    obtain ⟨w1, w2, w3, w4⟩ := skipWhitespace_state l hinv
    obtain ⟨c1, c2, c3, c4⟩ := skipComment_state (skipWhitespace l) w1
    rw [← hL] at c1 c2 c3 c4
    have hrpL : l.readPosition ≤ L.readPosition := le_trans w2 c2
    have hinL : L.input = l.input := by rw [c3, w3]
    have hmL : lexMeasure L ≤ lexMeasure l := le_trans c4 w4
    have hrc := readChar_readPosition L
    have hrc2 := readChar_readPosition (readChar L)
    have hfin1 : lexInv (readChar L) ∧ l.readPosition < (readChar L).readPosition ∧
        (readChar L).input = l.input :=
      ⟨lexInv_readChar c1, by omega, by rw [readChar_input, hinL]⟩
    have hfin2 : lexInv (readChar (readChar L)) ∧
        l.readPosition < (readChar (readChar L)).readPosition ∧
        (readChar (readChar L)).input = l.input :=
      ⟨lexInv_readChar (lexInv_readChar c1), by omega,
       by rw [readChar_input, readChar_input, hinL]⟩
    by_cases h1 : L.ch = 61
    · by_cases hp1 : peekChar L = 61
      · simp only [h1, hp1]
        simpa using hfin2
      · simp only [h1, hp1]
        simpa using hfin1
    · by_cases h2 : L.ch = 33
      · by_cases hp2 : peekChar L = 61
        · simp only [h1, h2, hp2]
          simpa using hfin2
        · simp only [h1, h2, hp2]
          simpa using hfin1
      · by_cases h3 : L.ch = 43
        · simp only [h1, h2, h3]
          simpa using hfin1
        · by_cases h4 : L.ch = 45
          · simp only [h1, h2, h3, h4]
            simpa using hfin1
          · by_cases h5 : L.ch = 42
            · simp only [h1, h2, h3, h4, h5]
              simpa using hfin1
            · by_cases h6 : L.ch = 47
              · by_cases hp6 : peekChar L = 47
                · have hch0 : L.ch ≠ 0 := by rw [h6]; decide
                  obtain ⟨r1, r2, r3, r4⟩ :=
                    skipComment_state (readChar L) (lexInv_readChar c1)
                  have hm2 : lexMeasure (skipComment (readChar L)) + 1 ≤ g := by
                    have hlt := lexMeasure_readChar_lt hch0
                    omega
                  obtain ⟨q1, q2, q3⟩ := IH g (by omega) (skipComment (readChar L)) r1 hm2
                  have q3' : (nextTokenF g (skipComment (readChar L))).2.input = l.input := by
                    rw [q3, r3, readChar_input, hinL]
                  simp [h1, h2, h3, h4, h5, h6, hp6]
                  exact ⟨q1, by omega, q3'⟩
                · simp only [h1, h2, h3, h4, h5, h6, hp6]
                  simpa using hfin1
              · by_cases h7 : L.ch = 60
                · by_cases hp7 : peekChar L = 61
                  · simp only [h1, h2, h3, h4, h5, h6, h7, hp7]
                    simpa using hfin2
                  · simp only [h1, h2, h3, h4, h5, h6, h7, hp7]
                    simpa using hfin1
                · by_cases h8 : L.ch = 62
                  · by_cases hp8 : peekChar L = 61
                    · simp only [h1, h2, h3, h4, h5, h6, h7, h8, hp8]
                      simpa using hfin2
                    · simp only [h1, h2, h3, h4, h5, h6, h7, h8, hp8]
                      simpa using hfin1
                  · by_cases h9 : L.ch = 44
                    · simp only [h1, h2, h3, h4, h5, h6, h7, h8, h9]
                      simpa using hfin1
                    · by_cases h10 : L.ch = 59
                      · simp only [h1, h2, h3, h4, h5, h6, h7, h8, h9, h10]
                        simpa using hfin1
                      · by_cases h11 : L.ch = 40
                        · simp only [h1, h2, h3, h4, h5, h6, h7, h8, h9, h10, h11]
                          simpa using hfin1
                        · by_cases h12 : L.ch = 41
                          · simp only [h1, h2, h3, h4, h5, h6, h7, h8, h9, h10, h11, h12]
                            simpa using hfin1
                          · by_cases h13 : L.ch = 123
                            · simp only [h1, h2, h3, h4, h5, h6, h7, h8, h9, h10, h11, h12, h13]
                              simpa using hfin1
                            · by_cases h14 : L.ch = 125
                              · simp only [h1, h2, h3, h4, h5, h6, h7, h8, h9, h10, h11, h12, h13,
                                  h14]
                                simpa using hfin1
                              · by_cases h15 : L.ch = 34
                                · obtain ⟨s1, s2, s3⟩ := readString_state L c1
                                  rcases hrs : readString L with ⟨sv, l2⟩
                                  rw [hrs] at s1 s2 s3
                                  have s1' : lexInv l2 := s1
                                  have s2' : L.readPosition + 1 ≤ l2.readPosition := s2
                                  have s3' : l2.input = l.input := by
                                    have : l2.input = L.input := s3
                                    rw [this, hinL]
                                  simp [h1, h2, h3, h4, h5, h6, h7, h8, h9, h10, h11, h12,
                                    h13, h14, h15, hrs]
                                  exact ⟨s1', by omega, s3'⟩
                                · by_cases h16 : L.ch = 0
                                  · simp only [h1, h2, h3, h4, h5, h6, h7, h8, h9, h10, h11, h12,
                                      h13, h14, h15, h16]
                                    simpa using hfin1
                                  · by_cases h17 : isLetter L.ch
                                    · rcases hri : readIdentifier L with ⟨sv, l2⟩
                                      have hsnd : l2 = readIdentLoopF (lexMeasure L) L := by
                                        have hx := readIdentifier_snd L
                                        rw [hri] at hx
                                        exact hx
                                      obtain ⟨i1, i2, i3, i4⟩ :=
                                        readIdentLoopF_state (lexMeasure L) L c1
                                      have hstr : L.readPosition + 1
                                          ≤ (readIdentLoopF (lexMeasure L) L).readPosition :=
                                        readIdentLoopF_strict c1 (by simp [h17])
                                          (lexMeasure_pos h16)
                                      rw [← hsnd] at i1 i3 hstr
                                      have i3' : l2.input = l.input := by rw [i3, hinL]
                                      simp [h1, h2, h3, h4, h5, h6, h7, h8, h9, h10, h11, h12,
                                        h13, h14, h15, h16, h17, hri]
                                      exact ⟨i1, by omega, i3'⟩
                                    · by_cases h18 : isDigit L.ch
                                      · rcases hri : readNumber L with ⟨sv, l2⟩
                                        have hsnd : l2 = readNumberLoopF (lexMeasure L) L := by
                                          have hx := readNumber_snd L
                                          rw [hri] at hx
                                          exact hx
                                        obtain ⟨i1, i2, i3, i4⟩ :=
                                          readNumberLoopF_state (lexMeasure L) L c1
                                        have hstr : L.readPosition + 1
                                            ≤ (readNumberLoopF (lexMeasure L) L).readPosition :=
                                          readNumberLoopF_strict c1 h18
                                            (lexMeasure_pos h16)
                                        rw [← hsnd] at i1 i3 hstr
                                        have i3' : l2.input = l.input := by rw [i3, hinL]
                                        simp [h1, h2, h3, h4, h5, h6, h7, h8, h9, h10, h11,
                                          h12, h13, h14, h15, h16, h17, h18, hri]
                                        exact ⟨i1, by omega, i3'⟩
                                      · simp only [h1, h2, h3, h4, h5, h6, h7, h8, h9, h10, h11,
                                          h12, h13, h14, h15, h16, h17, h18]
                                        simpa using hfin1

theorem nextToken_adv {l : Lexer} (h : lexInv l) :
    lexInv (nextToken l).2 ∧ l.readPosition < (nextToken l).2.readPosition ∧
    (nextToken l).2.input = l.input :=
  nextTokenF_adv (lexMeasure l + 1) l h (le_refl _)


theorem nextToken_exhausted {l : Lexer} (h : lexInv l) (hpos : l.input.length ≤ l.position) :
    nextToken l = ({ type := .EOF, literal := [], line := l.line, column := l.column },
      readChar l) := by
  have hch : l.ch = 0 := by
    obtain ⟨h1, h2, h3⟩ := h
    rw [h2]
    exact List.getD_eq_default _ _ hpos
  have hsw : skipWhitespace l = l := skipWhitespace_noop (by simp [hch])
  have hsc : skipComment l = l := skipComment_noop (by simp [hch])
  unfold nextToken nextTokenF
  rw [hsw, hsc]
  simp [hch]

theorem readChar_exhausted {l : Lexer} (h : lexInv l) (hpos : l.input.length ≤ l.position) :
    (readChar l).line = l.line ∧ (readChar l).column = l.column ∧
    l.input.length ≤ (readChar l).position := by
  obtain ⟨h1, h2, h3⟩ := h
  have h0 : l.input.getD l.readPosition 0 = 0 :=
    List.getD_eq_default _ _ (by omega)
  have hlc := readChar_line_column l
  rw [h0] at hlc
  unfold posStep at hlc
  simp at hlc
  have hp := readChar_position l
  exact ⟨hlc.1, hlc.2, by omega⟩

theorem nextToken_eof_forever : ∀ (n : Nat) (l : Lexer), lexInv l →
    l.input.length ≤ l.position →
    (nextToken (lexerIter n l)).1
      = { type := .EOF, literal := [], line := l.line, column := l.column } := by
  intro n
  induction n with
  | zero =>
    intro l h hpos
    rw [show lexerIter 0 l = l from rfl, nextToken_exhausted h hpos]
  | succ n ih =>
    intro l h hpos
    have hstep : lexerIter (n+1) l = lexerIter n (nextToken l).2 := rfl
    rw [hstep, nextToken_exhausted h hpos]
    obtain ⟨e1, e2, e3⟩ := readChar_exhausted h hpos
    have hinv2 := lexInv_readChar h
    have hexh : (readChar l).input.length ≤ (readChar l).position := by
      rw [readChar_input]
      exact e3
    rw [ih (readChar l) hinv2 hexh, e1, e2]

/-- C9: from any reachable lexer state, `nextToken` returns exactly one
token (by construction) while strictly advancing the internal position
and preserving the reachability invariant; and once the input is
exhausted, every subsequent call — after any number of further calls —
returns an end-of-input token carrying the same frozen position,
without error. -/
theorem c9_next_token_contract (l : Lexer) (h : lexInv l) :
    (l.readPosition < (nextToken l).2.readPosition ∧ lexInv (nextToken l).2
      ∧ (nextToken l).2.input = l.input)
    ∧ (l.input.length ≤ l.position →
        ∀ n : Nat, (nextToken (lexerIter n l)).1
          = { type := .EOF, literal := [], line := l.line, column := l.column }) := by
  obtain ⟨a1, a2, a3⟩ := nextToken_adv h
  exact ⟨⟨a2, a1, a3⟩, fun hpos n => nextToken_eof_forever n l h hpos⟩

/-- Witness for C9: one call on `"x"` advances the position; on empty
input, the third repeated call still returns EOF at line 1, column 1. -/
theorem c9_next_token_contract_witness :
    ((lexerNew (strBytes "x")).readPosition
      < (nextToken (lexerNew (strBytes "x"))).2.readPosition)
    ∧ (nextToken (lexerIter 3 (lexerNew (strBytes "")))).1
        = { type := .EOF, literal := [], line := 1, column := 1 } := by
  refine ⟨(c9_next_token_contract (lexerNew (strBytes "x")) (by decide)).1.1, ?_⟩
  have h := (c9_next_token_contract (lexerNew (strBytes "")) (by decide)).2 (by decide) 3
  exact h

/-- C3 amended: for a reachable lexer state whose current character is
one of the unconditionally single-character tokens
`+ - * , ; ( ) { }`, the returned token records the line of that
character but a column one greater than the character's own column
(`posLC` gives the true position of the character at index
`position`); multi-character tokens record the position after their
last scanned character, as the counterexample shows. -/
theorem c3_single_char_token_position (l : Lexer) (h : lexInv l)
    (hc : l.ch = 43 ∨ l.ch = 45 ∨ l.ch = 42 ∨ l.ch = 44 ∨ l.ch = 59 ∨
          l.ch = 40 ∨ l.ch = 41 ∨ l.ch = 123 ∨ l.ch = 125) :
    (nextToken l).1.line = (posLC l.input l.position).1 ∧
    (nextToken l).1.column = (posLC l.input l.position).2 + 1 := by
  have hch0 : l.ch ≠ 0 := by rcases hc with h|h|h|h|h|h|h|h|h <;> rw [h] <;> decide
  have hch10 : l.ch ≠ 10 := by rcases hc with h|h|h|h|h|h|h|h|h <;> rw [h] <;> decide
  have hlc : l.line = (posLC l.input l.position).1 ∧
      l.column = (posLC l.input l.position).2 + 1 := by
    obtain ⟨h1, h2, h3⟩ := h
    have hgd : l.input.getD l.position 0 ≠ 0 := by rw [← h2]; exact hch0
    have hpos : l.position < l.input.length := getD_ne_zero_lt hgd
    have hmin : min l.readPosition l.input.length = l.readPosition := by omega
    rw [hmin, h1, posLC_succ _ _ hpos, ← h2] at h3
    have hstep : posStep (posLC l.input l.position) l.ch
        = ((posLC l.input l.position).1, (posLC l.input l.position).2 + 1) := by
      unfold posStep
      rw [if_neg hch10, if_pos hch0]
    rw [hstep] at h3
    simp at h3
    exact h3
  have hsw : skipWhitespace l = l := skipWhitespace_noop (by
    rcases hc with h|h|h|h|h|h|h|h|h <;> rw [h] <;> decide)
  have hsc : skipComment l = l := skipComment_noop (by
    rcases hc with h|h|h|h|h|h|h|h|h <;> simp [h])
  have htok : (nextToken l).1.line = l.line ∧ (nextToken l).1.column = l.column := by
    unfold nextToken nextTokenF
    rw [hsw, hsc]
    rcases hc with h|h|h|h|h|h|h|h|h <;> simp [h] <;> exact ⟨rfl, rfl⟩
  rw [htok.1, htok.2]
  exact hlc

/-- Witness for C3 amended: the `+` of `"a+b"` sits at line 1, column 2,
and its token records line 1, column 3. -/
theorem c3_single_char_token_position_witness :
    (nextToken (nextToken (lexerNew (strBytes "a+b"))).2).1.line
        = (posLC (strBytes "a+b") 1).1
    ∧ (nextToken (nextToken (lexerNew (strBytes "a+b"))).2).1.column
        = (posLC (strBytes "a+b") 1).2 + 1
    ∧ posLC (strBytes "a+b") 1 = (1, 2) := by
  have h := c3_single_char_token_position (nextToken (lexerNew (strBytes "a+b"))).2
    (by decide) (by decide)
  refine ⟨?_, ?_, by decide⟩
  · have hx := h.1
    simpa using hx
  · have hx := h.2
    simpa using hx


/-! ### Parser monotonicity, progress and fuel adequacy -/

theorem pOk_refl (p : PSt) : pOk p p := ⟨rfl, le_refl _⟩

theorem pOk_trans {p q r : PSt} (h1 : pOk p q) (h2 : pOk q r) : pOk p r :=
  ⟨h2.1.trans h1.1, h2.2.trans h1.2⟩

theorem pOk_adv (p : PSt) : pOk p (adv p) :=
  ⟨rfl, by simp [adv]⟩

theorem length_dropWhile_le {α : Type} (P : α → Bool) (l : List α) :
    (l.dropWhile P).length ≤ l.length := by
  induction l with
  | nil => simp [List.dropWhile]
  | cons a t ih =>
    rw [List.dropWhile_cons]
    split
    · exact le_trans ih (by simp)
    · simp

theorem pOk_skipSemis (p : PSt) : pOk p (skipSemis p) :=
  ⟨rfl, by simp only [skipSemis]; exact length_dropWhile_le _ _⟩

theorem adv_lt {p : PSt} (h : p.rest ≠ []) : (adv p).rest.length < p.rest.length := by
  simp [adv]
  cases hp : p.rest with
  | nil => exact absurd hp h
  | cons a t => simp [hp]

theorem adv_len (p : PSt) : (adv p).rest.length = p.rest.length - 1 := by
  simp [adv]

theorem rest_ne_of_curTok {p : PSt} (hE : p.eofT.type = .EOF)
    (h : (curTok p).type ≠ .EOF) : p.rest ≠ [] := by
  intro hn
  exact h (by simp [curTok, hn, hE])

theorem parseF_expr_none_of_nil (f prec : Nat) (p : PSt) (hE : p.eofT.type = .EOF)
    (h : p.rest = []) : (parseF f (.expr prec p)).1 = .exprV none := by
  cases f with
  | zero => rfl
  | succ f =>
    have hc : curTok p = p.eofT := by simp [curTok, h]
    simp [parseF, hc, hE]

theorem parseF_M : ∀ (f : Nat) (c : PCall), (pstOf c).eofT.type = .EOF →
    pOk (pstOf c) (parseF f c).2.1 ∧
    (∀ s : St, isStmtish c → (parseF f c).1 = .stmtV (some s) →
      (parseF f c).2.1.rest.length < (pstOf c).rest.length) := by
  intro f
  induction f with
  | zero =>
    intro c hE
    refine ⟨?_, ?_⟩
    · cases c <;> exact pOk_refl _
    · intro s hS hV
      cases c <;> first | exact hS.elim | simp [parseF] at hV
  | succ f ih =>
    intro c hE
    cases c with
    | expr prec p =>
      refine ⟨?_, fun s hS _ => hS.elim⟩
      show pOk p (parseF (f+1) (.expr prec p)).2.1
      unfold parseF
      by_cases h1 : (curTok p).type = .MINUS
      · simp only [if_pos h1]
        by_cases h2 : (curTok (adv p)).type ≠ .INT
        · simp only [if_pos h2]
          exact pOk_adv p
        · simp only [if_neg h2]
          rcases hil : parseIntLit (curTok (adv p)).literal with _ | v <;> simp only [hil]
          · exact pOk_adv p
          · exact pOk_trans (pOk_trans (pOk_adv p) (pOk_adv (adv p)))
              (ih (.binLoop prec (.num (curTok p) (-v)) (adv (adv p))) hE).1
      · simp only [if_neg h1]
        rcases ht : (curTok p).type <;> simp only [ht] <;>
          first
          | exact pOk_refl p
          | exact pOk_trans (pOk_adv p)
              (ih (.binLoop prec (.strLit (curTok p) (curTok p).literal) (adv p)) hE).1
          | exact pOk_trans (pOk_adv p)
              (ih (.binLoop prec (.ident (curTok p) (curTok p).literal) (adv p)) hE).1
          | (rcases hil : parseIntLit (curTok p).literal with _ | v <;> simp only [hil]
             · exact pOk_refl p
             · exact pOk_trans (pOk_adv p)
                 (ih (.binLoop prec (.num (curTok p) v) (adv p)) hE).1)
    | binLoop prec left p =>
      refine ⟨?_, fun s hS _ => hS.elim⟩
      show pOk p (parseF (f+1) (.binLoop prec left p)).2.1
      simp only [parseF]
      split
      · rcases hq : parseF f (.expr (getPrecedence (curTok p).type) (adv p)) with ⟨vq, pq, dq⟩
        have hOkq : pOk p pq := by
          have h := (ih (.expr (getPrecedence (curTok p).type) (adv p)) hE).1
          rw [hq] at h
          exact pOk_trans (pOk_adv p) h
        rcases vq with e | s | b | ss
        · rcases e with _ | right
          · exact hOkq
          · have hE2 : pq.eofT.type = .EOF := by rw [hOkq.1]; exact hE
            show pOk p (parseF f (.binLoop prec (.binary (curTok p) left (curTok p).literal right) pq)).2.1
            exact pOk_trans hOkq
              (ih (.binLoop prec (.binary (curTok p) left (curTok p).literal right) pq) hE2).1
        · exact hOkq
        · exact hOkq
        · exact hOkq
      · exact pOk_refl p
    | stmt p =>
      have KEY : pOk p (parseF (f+1) (.stmt p)).2.1 ∧
          (∀ s : St, (parseF (f+1) (.stmt p)).1 = .stmtV (some s) →
            (parseF (f+1) (.stmt p)).2.1.rest.length < p.rest.length) := by
        simp only [parseF]
        rcases ht : (curTok p).type <;> simp only [ht] <;>
          first
          | exact ⟨pOk_refl p, fun s hV => by simp at hV⟩
          | skip
        -- SUN
        case SUN =>
          by_cases h2 : (curTok (adv p)).type ≠ .IDENT
          · simp only [if_pos h2]
            exact ⟨pOk_adv p, fun s hV => by simp at hV⟩
          · simp only [if_neg h2]
            by_cases h3 : (curTok (adv (adv p))).type ≠ .ASSIGN
            · simp only [if_pos h3]
              exact ⟨pOk_trans (pOk_adv p) (pOk_adv (adv p)), fun s hV => by simp at hV⟩
            · simp only [if_neg h3]
              rcases hq : parseF f (.expr LOWEST (adv (adv (adv p)))) with ⟨vq, pq, dq⟩
              have hOkq : pOk (adv (adv (adv p))) pq := by
                have h := (ih (.expr LOWEST (adv (adv (adv p)))) hE).1
                rw [hq] at h
                exact h
              have hchain : pOk p pq :=
                pOk_trans (pOk_trans (pOk_trans (pOk_adv p) (pOk_adv (adv p))) (pOk_adv (adv (adv p)))) hOkq
              have hlt : pq.rest.length < p.rest.length := by
                rw [not_not] at h3
                have hne : (adv (adv p)).rest ≠ [] :=
                  rest_ne_of_curTok hE (by rw [h3]; decide)
                have ha := adv_lt hne
                have hb := (pOk_trans (pOk_adv p) (pOk_adv (adv p))).2
                have hc := hOkq.2
                omega
              rcases vq with e | _ | _ | _
              · rcases e with _ | v
                · exact ⟨hchain, fun s hV => by simp at hV⟩
                · exact ⟨hchain, fun s _ => hlt⟩
              · exact ⟨hchain, fun s hV => by simp at hV⟩
              · exact ⟨hchain, fun s hV => by simp at hV⟩
              · exact ⟨hchain, fun s hV => by simp at hV⟩
        case SUNA =>
          have h := ih (.printStmt p) hE
          exact ⟨h.1, fun s hV => h.2 s trivial hV⟩
        case AGAR =>
          have h := ih (.ifStmt p) hE
          exact ⟨h.1, fun s hV => h.2 s trivial hV⟩
      exact ⟨KEY.1, fun s _ hV => KEY.2 s hV⟩
    | printStmt p =>
      have KEY : pOk p (parseF (f+1) (.printStmt p)).2.1 ∧
          (∀ s : St, (parseF (f+1) (.printStmt p)).1 = .stmtV (some s) →
            (parseF (f+1) (.printStmt p)).2.1.rest.length < p.rest.length) := by
        simp only [parseF]
        rcases hq : parseF f (.expr LOWEST (adv p)) with ⟨vq, pq, dq⟩
        have hOkq : pOk (adv p) pq := by
          have h := (ih (.expr LOWEST (adv p)) hE).1
          rw [hq] at h
          exact h
        have hchain : pOk p pq := pOk_trans (pOk_adv p) hOkq
        rcases vq with e | _ | _ | _
        · rcases e with _ | v
          · exact ⟨hchain, fun s hV => by simp at hV⟩
          · refine ⟨hchain, fun s _ => ?_⟩
            show pq.rest.length < p.rest.length
            by_cases hr : p.rest = []
            · have hnil : (adv p).rest = [] := by simp [adv, hr]
              have hh := parseF_expr_none_of_nil f LOWEST (adv p) hE hnil
              rw [hq] at hh
              simp at hh
            · have ha := adv_lt hr
              have hb := hOkq.2
              omega
        · exact ⟨hchain, fun s hV => by simp at hV⟩
        · exact ⟨hchain, fun s hV => by simp at hV⟩
        · exact ⟨hchain, fun s hV => by simp at hV⟩
      exact ⟨KEY.1, fun s _ hV => KEY.2 s hV⟩
    | ifStmt p =>
      have KEY : pOk p (parseF (f+1) (.ifStmt p)).2.1 ∧
          (∀ s : St, (parseF (f+1) (.ifStmt p)).1 = .stmtV (some s) →
            (parseF (f+1) (.ifStmt p)).2.1.rest.length < p.rest.length) := by
        simp only [parseF]
        rcases hq : parseF f (.expr LOWEST (adv p)) with ⟨vq, pq, dq⟩
        have hOkq : pOk (adv p) pq := by
          have h := (ih (.expr LOWEST (adv p)) hE).1
          rw [hq] at h
          exact h
        have hchain : pOk p pq := pOk_trans (pOk_adv p) hOkq
        rcases vq with e | _ | _ | _
        · rcases e with _ | cond
          · exact ⟨hchain, fun s hV => by simp at hV⟩
          · have hrne : p.rest ≠ [] := by
              intro hr
              have hnil : (adv p).rest = [] := by simp [adv, hr]
              have hh := parseF_expr_none_of_nil f LOWEST (adv p) hE hnil
              rw [hq] at hh
              simp at hh
            have hpq : pq.rest.length < p.rest.length := by
              have ha := adv_lt hrne
              have hb := hOkq.2
              omega
            by_cases hb1 : (curTok pq).type ≠ .LBRACE
            · simp only [if_pos hb1]
              exact ⟨hchain, fun s hV => by simp at hV⟩
            · simp only [if_neg hb1]
              have hE2 : pq.eofT.type = .EOF := by rw [hOkq.1]; exact hE
              rcases hq2 : parseF f (.block pq) with ⟨v2, p3, d2⟩
              have hOk3 : pOk pq p3 := by
                have h := (ih (.block pq) hE2).1
                rw [hq2] at h
                exact h
              have hchain3 : pOk p p3 := pOk_trans hchain hOk3
              rcases v2 with _ | _ | b | _
              · exact ⟨hchain3, fun s hV => by simp at hV⟩
              · exact ⟨hchain3, fun s hV => by simp at hV⟩
              · rcases b with _ | conseq
                · exact ⟨hchain3, fun s hV => by simp at hV⟩
                · have hE3 : p3.eofT.type = .EOF := by rw [hOk3.1]; exact hE2
                  have hOk5 : pOk p3 (skipSemis (adv p3)) :=
                    pOk_trans (pOk_adv p3) (pOk_skipSemis (adv p3))
                  by_cases hm : (curTok (skipSemis (adv p3))).type = .MAGAR
                  · simp only [if_pos hm]
                    by_cases hb2 : (curTok (adv (skipSemis (adv p3)))).type ≠ .LBRACE
                    · simp only [if_pos hb2]
                      exact ⟨pOk_trans hchain3 (pOk_trans hOk5 (pOk_adv _)),
                        fun s hV => by simp at hV⟩
                    · simp only [if_neg hb2]
                      have hE6 : (adv (skipSemis (adv p3))).eofT.type = .EOF := hE3
                      rcases hq3 : parseF f (.block (adv (skipSemis (adv p3)))) with ⟨v3, p7, d3⟩
                      have hOk7 : pOk (adv (skipSemis (adv p3))) p7 := by
                        have h := (ih (.block (adv (skipSemis (adv p3)))) hE6).1
                        rw [hq3] at h
                        exact h
                      have hchain7 : pOk p p7 :=
                        pOk_trans hchain3 (pOk_trans (pOk_trans hOk5 (pOk_adv _)) hOk7)
                      rcases v3 with _ | _ | b3 | _
                      · exact ⟨hchain7, fun s hV => by simp at hV⟩
                      · exact ⟨hchain7, fun s hV => by simp at hV⟩
                      · rcases b3 with _ | alt
                        · exact ⟨hchain7, fun s hV => by simp at hV⟩
                        · refine ⟨pOk_trans hchain7 (pOk_adv p7), fun s _ => ?_⟩
                          show (adv p7).rest.length < p.rest.length
                          have h1 := (pOk_adv p7).2
                          have h2 := hOk7.2
                          have h3 := hOk5.2
                          have h4 := hOk3.2
                          have h5 := (pOk_adv (skipSemis (adv p3))).2
                          omega
                      · exact ⟨hchain7, fun s hV => by simp at hV⟩
                  · simp only [if_neg hm]
                    refine ⟨pOk_trans hchain3 hOk5, fun s _ => ?_⟩
                    have h1 := hOk5.2
                    have h2 := hOk3.2
                    omega
              · exact ⟨hchain3, fun s hV => by simp at hV⟩
        · exact ⟨hchain, fun s hV => by simp at hV⟩
        · exact ⟨hchain, fun s hV => by simp at hV⟩
        · exact ⟨hchain, fun s hV => by simp at hV⟩
      exact ⟨KEY.1, fun s _ hV => KEY.2 s hV⟩
    | block p =>
      refine ⟨?_, fun s hS _ => hS.elim⟩
      show pOk p (parseF (f+1) (.block p)).2.1
      exact pOk_trans (pOk_adv p) (ih (.blockLoop (curTok p) [] (adv p)) hE).1
    | blockLoop btok acc p =>
      refine ⟨?_, fun s hS _ => hS.elim⟩
      show pOk p (parseF (f+1) (.blockLoop btok acc p)).2.1
      simp only [parseF]
      split
      · rcases hq : parseF f (.stmt p) with ⟨vq, p1, dq⟩
        have hM := ih (.stmt p) hE
        simp only [hq] at hM
        rcases vq with _ | st | _ | _
        · exact hM.1
        · have hE1 : p1.eofT.type = .EOF := by rw [hM.1.1]; exact hE
          cases st with
          | none =>
            show pOk p (parseF f (.blockLoop btok acc (skipSemis (adv p1)))).2.1
            exact pOk_trans (pOk_trans (pOk_trans hM.1 (pOk_adv p1)) (pOk_skipSemis (adv p1)))
              (ih (.blockLoop btok acc (skipSemis (adv p1))) hE1).1
          | some s0 =>
            show pOk p (parseF f (.blockLoop btok (acc ++ [s0]) (skipSemis p1))).2.1
            exact pOk_trans (pOk_trans hM.1 (pOk_skipSemis p1))
              (ih (.blockLoop btok (acc ++ [s0]) (skipSemis p1)) hE1).1
        · exact hM.1
        · exact hM.1
      · split
        · exact pOk_refl p
        · exact pOk_refl p
    | progLoop acc p =>
      refine ⟨?_, fun s hS _ => hS.elim⟩
      show pOk p (parseF (f+1) (.progLoop acc p)).2.1
      simp only [parseF]
      split
      · rcases hq : parseF f (.stmt p) with ⟨vq, p1, dq⟩
        have hM := ih (.stmt p) hE
        simp only [hq] at hM
        rcases vq with _ | st | _ | _
        · exact hM.1
        · have hE1 : p1.eofT.type = .EOF := by rw [hM.1.1]; exact hE
          cases st with
          | none =>
            show pOk p (parseF f (.progLoop acc (skipSemis (adv p1)))).2.1
            exact pOk_trans (pOk_trans (pOk_trans hM.1 (pOk_adv p1)) (pOk_skipSemis (adv p1)))
              (ih (.progLoop acc (skipSemis (adv p1))) hE1).1
          | some s0 =>
            show pOk p (parseF f (.progLoop (acc ++ [s0]) (skipSemis p1))).2.1
            exact pOk_trans (pOk_trans hM.1 (pOk_skipSemis p1))
              (ih (.progLoop (acc ++ [s0]) (skipSemis p1)) hE1).1
        · exact hM.1
        · exact hM.1
      · exact pOk_refl p

theorem pcallBound_ge (c : PCall) : 2 ≤ pcallBound c := by
  cases c <;> simp only [pcallBound] <;> omega

theorem parseF_step (f : Nat) : ∀ (c : PCall), (pstOf c).eofT.type = .EOF →
    (∀ q : PSt, c = .block q → q.rest ≠ []) →
    pcallBound c ≤ f →
    parseF (f+1) c = parseF f c := by
  induction f using Nat.strong_induction_on with
  | _ f ih =>
  intro c hE hblk hB
  have hge := pcallBound_ge c
  obtain ⟨g, rfl⟩ : ∃ g, f = g + 1 := ⟨f - 1, by omega⟩
  cases c with
  | expr prec p =>
    simp only [pcallBound] at hB
    conv_lhs => rw [parseF]
    conv_rhs => rw [parseF]
    by_cases h1 : (curTok p).type = .MINUS
    · simp only [if_pos h1]
      have hne : p.rest ≠ [] := rest_ne_of_curTok hE (by rw [h1]; decide)
      have ha := adv_lt hne
      have hb := (pOk_adv (adv p)).2
      by_cases h2 : (curTok (adv p)).type ≠ .INT
      · simp only [if_pos h2]
      · simp only [if_neg h2]
        rcases hil : parseIntLit (curTok (adv p)).literal with _ | v
        · simp only [hil]
        · simp only [hil]
          exact ih g (by omega) (.binLoop prec (.num (curTok p) (-v)) (adv (adv p))) hE
            (fun q h => by cases h) (by simp only [pcallBound]; omega)
    · simp only [if_neg h1]
      rcases ht : (curTok p).type <;> simp only [ht] <;>
        first
        | rfl
        | (exact ih g (by omega) (.binLoop prec (.strLit (curTok p) (curTok p).literal) (adv p)) hE
             (fun q h => by cases h)
             (by have hne : p.rest ≠ [] := rest_ne_of_curTok hE (by rw [ht]; decide)
                 have ha := adv_lt hne
                 simp only [pcallBound]; omega))
        | (exact ih g (by omega) (.binLoop prec (.ident (curTok p) (curTok p).literal) (adv p)) hE
             (fun q h => by cases h)
             (by have hne : p.rest ≠ [] := rest_ne_of_curTok hE (by rw [ht]; decide)
                 have ha := adv_lt hne
                 simp only [pcallBound]; omega))
        | (rcases hil : parseIntLit (curTok p).literal with _ | v
           · simp only [hil]
           · simp only [hil]
             exact ih g (by omega) (.binLoop prec (.num (curTok p) v) (adv p)) hE
               (fun q h => by cases h)
               (by have hne : p.rest ≠ [] := rest_ne_of_curTok hE (by rw [ht]; decide)
                   have ha := adv_lt hne
                   simp only [pcallBound]; omega))
  | binLoop prec left p =>
    simp only [pcallBound] at hB
    conv_lhs => rw [parseF]
    conv_rhs => rw [parseF]
    by_cases hg2 : (curTok p).type ≠ .EOF ∧ (curTok p).type ≠ .SEMICOLON ∧
        (curTok p).type ≠ .RBRACE ∧ (curTok p).type ≠ .LBRACE ∧
        prec < getPrecedence (curTok p).type ∧ isOperator (curTok p).type
    · simp only [if_pos hg2]
      have hne : p.rest ≠ [] := rest_ne_of_curTok hE hg2.1
      have ha := adv_lt hne
      have hsub : parseF (g+1) (.expr (getPrecedence (curTok p).type) (adv p))
          = parseF g (.expr (getPrecedence (curTok p).type) (adv p)) :=
        ih g (by omega) _ hE (fun q h => by cases h) (by simp only [pcallBound]; omega)
      rw [hsub]
      rcases hq : parseF g (.expr (getPrecedence (curTok p).type) (adv p)) with ⟨vq, pq, dq⟩
      have hM := (parseF_M g (.expr (getPrecedence (curTok p).type) (adv p)) hE).1
      simp only [hq, pstOf] at hM
      rcases vq with e | _ | _ | _
      · rcases e with _ | right
        · rfl
        · have hEq : pq.eofT.type = .EOF := by rw [hM.1]; exact hE
          have hsub2 : parseF (g+1) (.binLoop prec (.binary (curTok p) left (curTok p).literal right) pq)
              = parseF g (.binLoop prec (.binary (curTok p) left (curTok p).literal right) pq) :=
            ih g (by omega) _ hEq (fun q h => by cases h)
              (by have := hM.2; simp only [pcallBound]; omega)
          exact congrArg (fun r => (r.1, r.2.1, dq ++ r.2.2)) hsub2
      · rfl
      · rfl
      · rfl
    · simp only [if_neg hg2]
  | stmt p =>
    simp only [pcallBound] at hB
    conv_lhs => rw [parseF]
    conv_rhs => rw [parseF]
    rcases ht : (curTok p).type <;> simp only [ht]
    case SUN =>
      by_cases h2 : (curTok (adv p)).type ≠ .IDENT
      · simp only [if_pos h2]
      · simp only [if_neg h2]
        by_cases h3 : (curTok (adv (adv p))).type ≠ .ASSIGN
        · simp only [if_pos h3]
        · simp only [if_neg h3]
          have ha := (pOk_adv p).2
          have hb := (pOk_adv (adv p)).2
          have hc := (pOk_adv (adv (adv p))).2
          have hsub : parseF (g+1) (.expr LOWEST (adv (adv (adv p))))
              = parseF g (.expr LOWEST (adv (adv (adv p)))) :=
            ih g (by omega) _ hE (fun q h => by cases h) (by simp only [pcallBound]; omega)
          rw [hsub]
    case SUNA =>
      exact ih g (by omega) (.printStmt p) hE (fun q h => by cases h)
        (by simp only [pcallBound]; omega)
    case AGAR =>
      exact ih g (by omega) (.ifStmt p) hE (fun q h => by cases h)
        (by simp only [pcallBound]; omega)
  | printStmt p =>
    simp only [pcallBound] at hB
    conv_lhs => rw [parseF]
    conv_rhs => rw [parseF]
    have ha := (pOk_adv p).2
    have hsub : parseF (g+1) (.expr LOWEST (adv p)) = parseF g (.expr LOWEST (adv p)) :=
      ih g (by omega) _ hE (fun q h => by cases h) (by simp only [pcallBound]; omega)
    rw [hsub]
  | ifStmt p =>
    simp only [pcallBound] at hB
    conv_lhs => rw [parseF]
    conv_rhs => rw [parseF]
    have ha := (pOk_adv p).2
    have hsub : parseF (g+1) (.expr LOWEST (adv p)) = parseF g (.expr LOWEST (adv p)) :=
      ih g (by omega) _ hE (fun q h => by cases h) (by simp only [pcallBound]; omega)
    rw [hsub]
    rcases hq : parseF g (.expr LOWEST (adv p)) with ⟨vq, pq, dq⟩
    have hM := (parseF_M g (.expr LOWEST (adv p)) hE).1
    simp only [hq, pstOf] at hM
    rcases vq with e | _ | _ | _
    · rcases e with _ | cond
      · rfl
      · by_cases hb1 : (curTok pq).type ≠ .LBRACE
        · simp only [if_pos hb1]
        · simp only [if_neg hb1]
          rw [not_not] at hb1
          have hEq : pq.eofT.type = .EOF := by rw [hM.1]; exact hE
          have hneq : pq.rest ≠ [] := rest_ne_of_curTok hEq (by rw [hb1]; decide)
          have hsub2 : parseF (g+1) (.block pq) = parseF g (.block pq) :=
            ih g (by omega) (.block pq) hEq (fun q h => by cases h; exact hneq)
              (by have := hM.2; simp only [pcallBound]; omega)
          rw [hsub2]
          rcases hq2 : parseF g (.block pq) with ⟨v2, p3, d2⟩
          have hM3 := (parseF_M g (.block pq) hEq).1
          simp only [hq2, pstOf] at hM3
          rcases v2 with _ | _ | b | _
          · rfl
          · rfl
          · rcases b with _ | conseq
            · rfl
            · by_cases hm : (curTok (skipSemis (adv p3))).type = .MAGAR
              · simp only [if_pos hm]
                by_cases hb2 : (curTok (adv (skipSemis (adv p3)))).type ≠ .LBRACE
                · simp only [if_pos hb2]
                · simp only [if_neg hb2]
                  rw [not_not] at hb2
                  have hE3 : p3.eofT.type = .EOF := by rw [hM3.1]; exact hEq
                  have hE6 : (adv (skipSemis (adv p3))).eofT.type = .EOF := hE3
                  have hne6 : (adv (skipSemis (adv p3))).rest ≠ [] :=
                    rest_ne_of_curTok hE6 (by rw [hb2]; decide)
                  have hsub3 : parseF (g+1) (.block (adv (skipSemis (adv p3))))
                      = parseF g (.block (adv (skipSemis (adv p3)))) :=
                    ih g (by omega) _ hE6 (fun q h => by cases h; exact hne6)
                      (by have h1 := hM.2
                          have h2 := hM3.2
                          have h3 := (pOk_skipSemis (adv p3)).2
                          have h4 := adv_len p3
                          have h5 := adv_len (skipSemis (adv p3))
                          simp only [pcallBound]
                          omega)
                  rw [hsub3]
              · simp only [if_neg hm]
          · rfl
    · rfl
    · rfl
    · rfl
  | block p =>
    simp only [pcallBound] at hB
    have hne : p.rest ≠ [] := hblk p rfl
    have ha := adv_lt hne
    conv_lhs => rw [parseF]
    conv_rhs => rw [parseF]
    exact ih g (by omega) (.blockLoop (curTok p) [] (adv p)) hE (fun q h => by cases h)
      (by simp only [pcallBound]; omega)
  | blockLoop btok acc p =>
    simp only [pcallBound] at hB
    conv_lhs => rw [parseF]
    conv_rhs => rw [parseF]
    by_cases hg2 : (curTok p).type ≠ .RBRACE ∧ (curTok p).type ≠ .EOF
    · simp only [if_pos hg2]
      have hne : p.rest ≠ [] := rest_ne_of_curTok hE hg2.2
      have hlp : 0 < p.rest.length := List.length_pos.mpr hne
      have hsub : parseF (g+1) (.stmt p) = parseF g (.stmt p) :=
        ih g (by omega) (.stmt p) hE (fun q h => by cases h) (by simp only [pcallBound]; omega)
      rw [hsub]
      rcases hq : parseF g (.stmt p) with ⟨vq, p1, dq⟩
      have hM := parseF_M g (.stmt p) hE
      simp only [hq, pstOf] at hM
      rcases vq with _ | st | _ | _
      · rfl
      · have hE1 : p1.eofT.type = .EOF := by rw [hM.1.1]; exact hE
        cases st with
        | none =>
          have h1 := hM.1.2
          have h2 := (pOk_skipSemis (adv p1)).2
          have h3 := adv_len p1
          have hsub2 : parseF (g+1) (.blockLoop btok acc (skipSemis (adv p1)))
              = parseF g (.blockLoop btok acc (skipSemis (adv p1))) :=
            ih g (by omega) _ hE1 (fun q h => by cases h)
              (by simp only [pcallBound]; omega)
          exact congrArg (fun r => (r.1, r.2.1, dq ++ r.2.2)) hsub2
        | some s0 =>
          have h1 := hM.2 s0 trivial rfl
          have h2 := (pOk_skipSemis p1).2
          have hsub2 : parseF (g+1) (.blockLoop btok (acc ++ [s0]) (skipSemis p1))
              = parseF g (.blockLoop btok (acc ++ [s0]) (skipSemis p1)) :=
            ih g (by omega) _ hE1 (fun q h => by cases h)
              (by simp only [pcallBound]; omega)
          exact congrArg (fun r => (r.1, r.2.1, dq ++ r.2.2)) hsub2
      · rfl
      · rfl
    · simp only [if_neg hg2]
  | progLoop acc p =>
    simp only [pcallBound] at hB
    conv_lhs => rw [parseF]
    conv_rhs => rw [parseF]
    by_cases hg2 : (curTok p).type ≠ .EOF
    · simp only [if_pos hg2]
      have hne : p.rest ≠ [] := rest_ne_of_curTok hE hg2
      have hlp : 0 < p.rest.length := List.length_pos.mpr hne
      have hsub : parseF (g+1) (.stmt p) = parseF g (.stmt p) :=
        ih g (by omega) (.stmt p) hE (fun q h => by cases h) (by simp only [pcallBound]; omega)
      rw [hsub]
      rcases hq : parseF g (.stmt p) with ⟨vq, p1, dq⟩
      have hM := parseF_M g (.stmt p) hE
      simp only [hq, pstOf] at hM
      rcases vq with _ | st | _ | _
      · rfl
      · have hE1 : p1.eofT.type = .EOF := by rw [hM.1.1]; exact hE
        cases st with
        | none =>
          have h1 := hM.1.2
          have h2 := (pOk_skipSemis (adv p1)).2
          have h3 := adv_len p1
          have hsub2 : parseF (g+1) (.progLoop acc (skipSemis (adv p1)))
              = parseF g (.progLoop acc (skipSemis (adv p1))) :=
            ih g (by omega) _ hE1 (fun q h => by cases h)
              (by simp only [pcallBound]; omega)
          exact congrArg
            (fun r => (r.1, r.2.1,
              (dq ++ [Out.diag (Diag.invalidStatement (curTok p1).line (curTok p1).column (curTok p1).type)]) ++ r.2.2))
            hsub2
        | some s0 =>
          have h1 := hM.2 s0 trivial rfl
          have h2 := (pOk_skipSemis p1).2
          have hsub2 : parseF (g+1) (.progLoop (acc ++ [s0]) (skipSemis p1))
              = parseF g (.progLoop (acc ++ [s0]) (skipSemis p1)) :=
            ih g (by omega) _ hE1 (fun q h => by cases h)
              (by simp only [pcallBound]; omega)
          exact congrArg (fun r => (r.1, r.2.1, dq ++ r.2.2)) hsub2
      · rfl
      · rfl
    · simp only [if_neg hg2]

theorem parseF_stable (c : PCall) (hE : (pstOf c).eofT.type = .EOF)
    (hblk : ∀ q : PSt, c = .block q → q.rest ≠ []) :
    ∀ f : Nat, pcallBound c ≤ f → parseF f c = parseF (pcallBound c) c := by
  intro f hf
  induction f, hf using Nat.le_induction with
  | base => rfl
  | succ f hf ihf =>
    rw [parseF_step f c hE hblk hf, ihf]

theorem parseStatement_progress (p : PSt) (hE : p.eofT.type = .EOF)
    (hne : (curTok p).type ≠ .EOF) :
    ∀ (st : Option St) (p1 : PSt) (ds : List Out), parseStatement p = (st, p1, ds) →
      (match st with | some _ => p1 | none => adv p1).rest.length < p.rest.length := by
  intro st p1 ds h
  have hlp : 0 < p.rest.length := List.length_pos.mpr (rest_ne_of_curTok hE hne)
  have hM := parseF_M (parserFuel p) (.stmt p) hE
  rcases hq : parseF (parserFuel p) (.stmt p) with ⟨vq, pq, dq⟩
  simp only [hq, pstOf] at hM
  simp only [parseStatement, hq] at h
  rcases vq with _ | s | _ | _
  · obtain ⟨rfl, rfl, rfl⟩ := h
    show (adv p1).rest.length < p.rest.length
    have := hM.1.2
    have := adv_len p1
    omega
  · obtain ⟨rfl, rfl, rfl⟩ := h
    cases st with
    | none =>
      show (adv p1).rest.length < p.rest.length
      have := hM.1.2
      have := adv_len p1
      omega
    | some s0 =>
      exact hM.2 s0 trivial rfl
  · obtain ⟨rfl, rfl, rfl⟩ := h
    show (adv p1).rest.length < p.rest.length
    have := hM.1.2
    have := adv_len p1
    omega
  · obtain ⟨rfl, rfl, rfl⟩ := h
    show (adv p1).rest.length < p.rest.length
    have := hM.1.2
    have := adv_len p1
    omega



theorem tokenizeF_reaches_eof : ∀ (f : Nat) (l : Lexer), lexInv l → 1 ≤ f →
    l.input.length + 1 ≤ f + l.position →
    (∃ ts t, tokenizeF f l = ts ++ [t] ∧ t.type = .EOF) ∧
    (∀ g, f ≤ g → tokenizeF g l = tokenizeF f l) := by
  intro f
  induction f using Nat.strong_induction_on with
  | _ f ih =>
  intro l hInv hf1 hfp
  obtain ⟨g, rfl⟩ : ∃ g, f = g + 1 := ⟨f - 1, by omega⟩
  by_cases hex : l.input.length ≤ l.position
  · have hnt := nextToken_exhausted hInv hex
    constructor
    · refine ⟨[], { type := .EOF, literal := [], line := l.line, column := l.column }, ?_, rfl⟩
      show tokenizeF (g+1) l = [{ type := .EOF, literal := [], line := l.line, column := l.column }]
      simp [tokenizeF, hnt]
    · intro g2 hg2
      obtain ⟨g3, rfl⟩ : ∃ g3, g2 = g3 + 1 := ⟨g2 - 1, by omega⟩
      simp [tokenizeF, hnt]
  · push_neg at hex
    rcases hnt : nextToken l with ⟨t, l1⟩
    have hadv := nextToken_adv hInv
    simp only [hnt] at hadv
    have hInv1 : lexInv l1 := hadv.1
    have hpos1 : l.position + 1 ≤ l1.position := by
      have h1 := hInv.1
      have h2 := hInv1.1
      have h3 := hadv.2.1
      omega
    have hg1 : 1 ≤ g := by omega
    have hrec := ih g (by omega) l1 hInv1 hg1 (by rw [hadv.2.2]; omega)
    constructor
    · by_cases ht : t.type = .EOF
      · exact ⟨[], t, by simp [tokenizeF, hnt, ht], ht⟩
      · obtain ⟨ts, t2, hts, ht2⟩ := hrec.1
        refine ⟨t :: ts, t2, ?_, ht2⟩
        simp [tokenizeF, hnt, ht, hts]
    · intro g2 hg2
      obtain ⟨g3, rfl⟩ : ∃ g3, g2 = g3 + 1 := ⟨g2 - 1, by omega⟩
      by_cases ht : t.type = .EOF
      · simp [tokenizeF, hnt, ht]
      · have hst := hrec.2 g3 (by omega)
        simp [tokenizeF, hnt, ht, hst]

/-- C10: `ParseProgram` terminates on every finite input.  Three facts
cover the claim.  First, the lexer reaches the end-of-input token after
finitely many calls: the materialised token stream ends in an EOF token
and is unchanged by any further fuel (each `NextToken` call strictly
advances the read position).  Second, the statement loop of
`ParseProgram` needs only the statically computed fuel `pcallBound`:
any larger fuel yields the same result, so the recursion depth of the
whole parse is finite.  Third, every iteration of the statement loop
consumes at least one token: a successfully parsed statement ends
strictly past its first token, and a failed parse is followed by
advancing exactly one token. -/
theorem c10_parse_program_terminates :
    (∀ input : List Nat,
        (∃ ts t, tokenize (lexerNew input) = ts ++ [t] ∧ t.type = .EOF) ∧
        (∀ g, (lexerNew input).input.length + 2 ≤ g →
          tokenizeF g (lexerNew input) = tokenize (lexerNew input)))
    ∧ (∀ p : PSt, p.eofT.type = .EOF → ∀ f, pcallBound (.progLoop [] p) ≤ f →
        parseF f (.progLoop [] p) = parseF (pcallBound (.progLoop [] p)) (.progLoop [] p))
    ∧ (∀ p : PSt, p.eofT.type = .EOF → (curTok p).type ≠ .EOF →
        ∀ (st : Option St) (p1 : PSt) (ds : List Out), parseStatement p = (st, p1, ds) →
          (match st with | some _ => p1 | none => adv p1).rest.length < p.rest.length) := by
  refine ⟨?_, ?_, ?_⟩
  · intro input
    have hpos : (lexerNew input).position = 0 := by
      rw [lexerNew, readChar_position]
    have h := tokenizeF_reaches_eof ((lexerNew input).input.length + 2) (lexerNew input)
      (lexInv_lexerNew input) (by omega) (by omega)
    exact ⟨h.1, fun g hg => h.2 g hg⟩
  · intro p hE f hf
    exact parseF_stable (.progLoop [] p) hE (fun q h => by cases h) f hf
  · intro p hE hne st p1 ds h
    exact parseStatement_progress p hE hne st p1 ds h

/-- Witness for C10: the fixed tokenizer fuel is already stable on the
one-byte input `"p"`; one extra fuel unit does not change the parse of
the empty token stream; and a failed statement parse on a single
integer token consumes that token. -/
theorem c10_parse_program_terminates_witness :
    tokenizeF 12 (lexerNew (strBytes "p")) = tokenize (lexerNew (strBytes "p"))
    ∧ parseF 9 (.progLoop [] { rest := [], eofT := dummyEofTok })
        = parseF 8 (.progLoop [] { rest := [], eofT := dummyEofTok })
    ∧ (adv (parseStatement
          { rest := [{ type := .INT, literal := [49], line := 1, column := 1 }],
            eofT := dummyEofTok }).2.1).rest.length
        < ({ rest := [{ type := .INT, literal := [49], line := 1, column := 1 }],
             eofT := dummyEofTok } : PSt).rest.length := by
  refine ⟨?_, ?_, ?_⟩
  · exact (c10_parse_program_terminates.1 (strBytes "p")).2 12 (by decide)
  · exact c10_parse_program_terminates.2.1 { rest := [], eofT := dummyEofTok } (by decide) 9
      (by decide)
  · have h := c10_parse_program_terminates.2.2
      { rest := [{ type := .INT, literal := [49], line := 1, column := 1 }],
        eofT := dummyEofTok }
      (by decide) (by decide)
      (parseStatement
        { rest := [{ type := .INT, literal := [49], line := 1, column := 1 }],
          eofT := dummyEofTok }).1
      (parseStatement
        { rest := [{ type := .INT, literal := [49], line := 1, column := 1 }],
          eofT := dummyEofTok }).2.1
      (parseStatement
        { rest := [{ type := .INT, literal := [49], line := 1, column := 1 }],
          eofT := dummyEofTok }).2.2
      rfl
    exact h
end Npp
